import Mathlib

/-!
Shallow embedding of src/server/text_generation_server/utils/tokens.py and
proofs about its next-token selection, speculative validation, stopping
criteria and top-n extraction.  Token ids are modelled as Int (torch long
tensors), scores and log probabilities as rationals (finite real values),
text as lists of characters.
-/

namespace TGITokens

/-- Items of a compiled regular-expression pattern, as far as the source
uses them: a literal character, or the unescaped metacharacter dot. -/
inductive RegexItem where
  | lit (c : Char)
  | dot
  deriving DecidableEq

/-- One pattern item against one character: a literal matches exactly
itself; the metacharacter dot matches any character except a newline
(Python re default, no DOTALL flag in the source). -/
def itemMatches : RegexItem → Char → Bool
  | .lit c, d => c = d
  | .dot, d => d ≠ '\n'

/-- A list of pattern items consumes a list of characters pointwise; the
lengths must agree. -/
def itemsMatch : List RegexItem → List Char → Bool
  | [], [] => true
  | i :: rest, c :: cs => itemMatches i c && itemsMatch rest cs
  | _, _ => false

/-- Python re semantics of the dollar anchor without MULTILINE: it accepts
at the very end of the string, or just before a newline that ends the
string.  The argument is the text remaining after the pattern body. -/
def dollarAccepts (t : List Char) : Bool :=
  t.isEmpty || t = ['\n']

/-- Whether re.findall on the compiled pattern consisting of the given
items followed by a dollar anchor returns a nonempty list on the given
text: some start position yields a match of the items followed by an
accepted anchor position. -/
def findallSomeMatch (items : List RegexItem) (s : List Char) : Bool :=
  (List.range (s.length + 1)).any (fun k =>
    itemsMatch items ((s.drop k).take items.length) &&
      dollarAccepts ((s.drop k).drop items.length))

/-- Semantic content of re.escape: every character of the input becomes a
literal item, so no character keeps a metacharacter meaning. -/
def reEscape (s : List Char) : List RegexItem :=
  s.map .lit

/-- Compilation of a raw, unescaped pattern restricted to the dot
metacharacter; used to exhibit what the escaping prevents. -/
def compileRaw (s : List Char) : List RegexItem :=
  s.map (fun c => if c = '.' then .dot else .lit c)

/-- StopSequenceCriteria of the source: its constructor escapes the stop
string and compiles the pattern with a trailing dollar anchor; we keep the
compiled item list. -/
structure StopSequenceCriteria where
  regex : List RegexItem
  deriving DecidableEq

/-- Constructor of StopSequenceCriteria: stop_sequence = re.escape(s);
regex = re.compile(s ++ dollar). -/
def StopSequenceCriteria.ofStop (stop : List Char) : StopSequenceCriteria :=
  ⟨reEscape stop⟩

/-- The call method of StopSequenceCriteria: true iff re.findall on the
compiled end-anchored pattern finds a match in the output. -/
def StopSequenceCriteria.call (c : StopSequenceCriteria) (output : List Char) : Bool :=
  findallSomeMatch c.regex output

/-- FinishReason values used by the source (from generate_pb2). -/
inductive FinishReason where
  | FINISH_REASON_LENGTH
  | FINISH_REASON_EOS_TOKEN
  | FINISH_REASON_STOP_SEQUENCE
  deriving DecidableEq

/-- Mutable state of StoppingCriteria. -/
structure StoppingCriteria where
  eos_token_id : Int
  stop_sequence_criterias : List StopSequenceCriteria
  max_new_tokens : Nat
  ignore_eos_token : Bool
  current_tokens : Nat
  current_output : List Char
  deriving DecidableEq

/-- Constructor of StoppingCriteria: current_tokens = 0 and an empty
output buffer. -/
def StoppingCriteria.init (eos : Int) (stops : List StopSequenceCriteria)
    (maxNew : Nat) (ignore : Bool) : StoppingCriteria :=
  ⟨eos, stops, maxNew, ignore, 0, []⟩

/-- The buffer the stop-sequence branch tests: the running output extended
by the new fragment, truncated to its last 200 characters once it exceeds
300 characters (python slice [-200:]). -/
def stepBuffer (s : StoppingCriteria) (last_output : List Char) : List Char :=
  let appended := s.current_output ++ last_output
  if 300 < appended.length then appended.drop (appended.length - 200) else appended

/-- The call method of StoppingCriteria: increment current_tokens; if it
reached max_new_tokens return LENGTH; else if the token is the eos token
(and eos is not ignored) return EOS_TOKEN; else, when stop sequences are
configured, extend and truncate the buffer and return STOP_SEQUENCE when
some criterion matches; otherwise not finished.  Returns the updated state
with the pair the python method returns. -/
def StoppingCriteria.call (s : StoppingCriteria) (last_token : Int)
    (last_output : List Char) : StoppingCriteria × Bool × Option FinishReason :=
  let s1 : StoppingCriteria := { s with current_tokens := s.current_tokens + 1 }
  if s1.max_new_tokens ≤ s1.current_tokens then
    (s1, true, some .FINISH_REASON_LENGTH)
  else if !s1.ignore_eos_token && last_token == s1.eos_token_id then
    (s1, true, some .FINISH_REASON_EOS_TOKEN)
  else if !s1.stop_sequence_criterias.isEmpty then
    let buf := stepBuffer s1 last_output
    let s2 : StoppingCriteria := { s1 with current_output := buf }
    if s2.stop_sequence_criterias.any (fun c => c.call buf) then
      (s2, true, some .FINISH_REASON_STOP_SEQUENCE)
    else
      (s2, false, none)
  else
    (s1, false, none)

/-- The sequence of results of calling the criteria once per input pair,
threading the state. -/
def StoppingCriteria.run (s : StoppingCriteria) :
    List (Int × List Char) → List (Bool × Option FinishReason)
  | [] => []
  | p :: rest =>
    let r := s.call p.1 p.2
    (r.2.1, r.2.2) :: r.1.run rest

/-- The state after calling the criteria once per input pair. -/
def StoppingCriteria.runEnd (s : StoppingCriteria) :
    List (Int × List Char) → StoppingCriteria
  | [] => s
  | p :: rest => ((s.call p.1 p.2).1).runEnd rest

/-- Hypothesis that along the given inputs neither the eos check nor a
stop-sequence check would fire: each token differs from the eos token
(unless eos is ignored) and no configured criterion matches the buffer the
corresponding call would test. -/
def nonTerminalInputs (s : StoppingCriteria) (inputs : List (Int × List Char)) : Prop :=
  ∀ k, k < inputs.length →
    (s.ignore_eos_token = true ∨ (inputs.getD k (0, [])).1 ≠ s.eos_token_id) ∧
    ∀ c ∈ s.stop_sequence_criterias,
      c.call (stepBuffer (s.runEnd (inputs.take k)) (inputs.getD k (0, [])).2) = false

instance (s : StoppingCriteria) (inputs : List (Int × List Char)) :
    Decidable (nonTerminalInputs s inputs) := by
  unfold nonTerminalInputs
  infer_instance

/-- Escaped items match exactly the escaped text itself. -/
theorem itemsMatch_reEscape : ∀ (s t : List Char), itemsMatch (reEscape s) t = true ↔ t = s
  | [], [] => by simp [reEscape, itemsMatch]
  | [], c :: cs => by simp [reEscape, itemsMatch]
  | a :: as, [] => by simp [reEscape, itemsMatch]
  | a :: as, c :: cs => by
    simp only [reEscape, List.map_cons, itemsMatch, itemMatches, Bool.and_eq_true,
      decide_eq_true_eq]
    rw [show itemsMatch (List.map RegexItem.lit as) cs = itemsMatch (reEscape as) cs from rfl,
      itemsMatch_reEscape as cs]
    constructor
    · rintro ⟨h1, h2⟩; rw [h1, h2]
    · rintro h; injection h with h1 h2; exact ⟨h1.symm, h2⟩

/-- A search for the escaped stop string anchored by the dollar succeeds
exactly when the stop string is a suffix of the text or a suffix of the
text short of one final newline. -/
theorem findallSomeMatch_reEscape (s out : List Char) :
    findallSomeMatch (reEscape s) out = true ↔ (s <:+ out ∨ s ++ ['\n'] <:+ out) := by
  unfold findallSomeMatch
  rw [List.any_eq_true]
  have hlen : (reEscape s).length = s.length := by simp [reEscape]
  constructor
  · rintro ⟨k, _, hmatch⟩
    rw [Bool.and_eq_true] at hmatch
    obtain ⟨hm, hd⟩ := hmatch
    rw [hlen] at hm hd
    rw [itemsMatch_reEscape] at hm
    unfold dollarAccepts at hd
    rw [Bool.or_eq_true] at hd
    have hsplit : out.drop k = s ++ (out.drop k).drop s.length := by
      conv_lhs => rw [← List.take_append_drop s.length (out.drop k)]
      rw [hm]
    rcases hd with hd | hd
    · left
      rw [List.isEmpty_iff] at hd
      rw [hd, List.append_nil] at hsplit
      exact hsplit ▸ List.drop_suffix k out
    · right
      rw [decide_eq_true_eq] at hd
      rw [hd] at hsplit
      exact hsplit ▸ List.drop_suffix k out
  · rintro (⟨t, ht⟩ | ⟨t, ht⟩)
    · refine ⟨t.length, ?_, ?_⟩
      · rw [List.mem_range, ← ht, List.length_append]; omega
      · rw [← ht, List.drop_left, hlen, List.take_length s, List.drop_length,
          Bool.and_eq_true, itemsMatch_reEscape]
        exact ⟨rfl, rfl⟩
    · refine ⟨t.length, ?_, ?_⟩
      · rw [List.mem_range, ← ht, List.length_append]; omega
      · rw [← ht, List.drop_left, hlen]
        rw [show (s ++ ['\n']).take s.length = s from List.take_left s ['\n']]
        rw [show (s ++ ['\n']).drop s.length = ['\n'] from List.drop_left s ['\n']]
        rw [Bool.and_eq_true, itemsMatch_reEscape]
        exact ⟨rfl, rfl⟩

/-- C8 (amended): the stop-sequence check built from a stop string matches
a buffer exactly when the buffer ends with the stop string taken as
literal text, or ends with the stop string followed by one final newline
(Python dollar also accepts just before a terminating newline).  Regex
metacharacters in the stop string have no pattern meaning and a stop
string occurring only strictly inside the buffer does not match. -/
theorem stop_sequence_literal_end_match (stop out : List Char) :
    (StopSequenceCriteria.ofStop stop).call out =
      (stop.isSuffixOf out || (stop ++ ['\n']).isSuffixOf out) := by
  have h := findallSomeMatch_reEscape stop out
  rw [Bool.eq_iff_iff]
  rw [show (StopSequenceCriteria.ofStop stop).call out =
    findallSomeMatch (reEscape stop) out from rfl]
  rw [h, Bool.or_eq_true]
  rw [List.isSuffixOf_iff_suffix, List.isSuffixOf_iff_suffix]

/-- C8 counterexample: the buffer xa.b followed by a newline does not end
with the literal stop string a.b, yet the compiled check matches it; the
escaping does make the dot literal, as the raw pattern would match axb
while the escaped one does not. -/
theorem stop_sequence_counterexample :
    (StopSequenceCriteria.ofStop ['a', '.', 'b']).call ['x', 'a', '.', 'b', '\n'] = true ∧
    (['a', '.', 'b'].isSuffixOf ['x', 'a', '.', 'b', '\n']) = false ∧
    (StopSequenceCriteria.ofStop ['a', '.', 'b']).call ['a', 'x', 'b'] = false ∧
    findallSomeMatch (compileRaw ['a', '.', 'b']) ['a', 'x', 'b'] = true := by
  decide

/-- Any single call increments current_tokens by exactly one and leaves
the configuration fields unchanged. -/
theorem call_fields (s : StoppingCriteria) (t : Int) (o : List Char) :
    (s.call t o).1.current_tokens = s.current_tokens + 1 ∧
    (s.call t o).1.eos_token_id = s.eos_token_id ∧
    (s.call t o).1.stop_sequence_criterias = s.stop_sequence_criterias ∧
    (s.call t o).1.max_new_tokens = s.max_new_tokens ∧
    (s.call t o).1.ignore_eos_token = s.ignore_eos_token := by
  unfold StoppingCriteria.call
  dsimp only
  refine ⟨?_, ?_, ?_, ?_, ?_⟩ <;>
  · repeat' split
    all_goals rfl

/-- Running a sequence of calls adds its length to current_tokens and
leaves the configuration fields unchanged. -/
theorem runEnd_fields : ∀ (inputs : List (Int × List Char)) (s : StoppingCriteria),
    (s.runEnd inputs).current_tokens = s.current_tokens + inputs.length ∧
    (s.runEnd inputs).eos_token_id = s.eos_token_id ∧
    (s.runEnd inputs).stop_sequence_criterias = s.stop_sequence_criterias ∧
    (s.runEnd inputs).max_new_tokens = s.max_new_tokens ∧
    (s.runEnd inputs).ignore_eos_token = s.ignore_eos_token
  | [], s => by simp [StoppingCriteria.runEnd]
  | p :: rest, s => by
    obtain ⟨h1, h2, h3, h4, h5⟩ := call_fields s p.1 p.2
    obtain ⟨g1, g2, g3, g4, g5⟩ := runEnd_fields rest (s.call p.1 p.2).1
    refine ⟨?_, ?_, ?_, ?_, ?_⟩ <;>
      simp only [StoppingCriteria.runEnd, g1, g2, g3, g4, g5, h1, h2, h3, h4, h5,
        List.length_cons]
    omega

/-- Running over an appended input list splits into two runs. -/
theorem run_append : ∀ (a b : List (Int × List Char)) (s : StoppingCriteria),
    s.run (a ++ b) = s.run a ++ (s.runEnd a).run b
  | [], _, _ => rfl
  | p :: rest, b, s => by
    simp only [List.cons_append, StoppingCriteria.run, StoppingCriteria.runEnd,
      List.append_eq, run_append rest b]

/-- A run produces one result per input. -/
theorem run_length : ∀ (inputs : List (Int × List Char)) (s : StoppingCriteria),
    (s.run inputs).length = inputs.length
  | [], _ => rfl
  | _ :: rest, s => by simp [StoppingCriteria.run, run_length rest]

/-- A call whose incremented count reaches max_new_tokens returns terminal
with reason LENGTH, whatever the token and text are. -/
theorem call_length (s : StoppingCriteria) (t : Int) (o : List Char)
    (h : s.max_new_tokens ≤ s.current_tokens + 1) :
    (s.call t o).2 = (true, some FinishReason.FINISH_REASON_LENGTH) := by
  unfold StoppingCriteria.call
  simp [h]

/-- A call below the length budget whose eos and stop-sequence checks do
not fire returns non-terminal with no reason. -/
theorem call_nonterminal (s : StoppingCriteria) (t : Int) (o : List Char)
    (hlen : s.current_tokens + 1 < s.max_new_tokens)
    (heos : s.ignore_eos_token = true ∨ t ≠ s.eos_token_id)
    (hstop : ∀ c ∈ s.stop_sequence_criterias, c.call (stepBuffer s o) = false) :
    (s.call t o).2 = (false, none) := by
  unfold StoppingCriteria.call
  dsimp only
  have hp1 : (s.max_new_tokens ≤ s.current_tokens + 1) = False := eq_false (by omega)
  have h2 : (!s.ignore_eos_token && t == s.eos_token_id) = false := by
    rcases heos with h | h
    · simp [h]
    · simp [h]
  have h4 : (s.stop_sequence_criterias.any fun c =>
      c.call (stepBuffer { s with current_tokens := s.current_tokens + 1 } o)) = false :=
    List.any_eq_false.mpr fun c hc => by
      rw [show stepBuffer { s with current_tokens := s.current_tokens + 1 } o =
        stepBuffer s o from rfl, hstop c hc]
      exact Bool.false_ne_true
  simp only [hp1, if_false, h2, h4, Bool.false_eq_true]
  split <;> rfl

/-- If the length budget is not exhausted along the inputs and neither the
eos nor a stop-sequence check fires, every call of the run is
non-terminal. -/
theorem run_all_nonterminal : ∀ (inputs : List (Int × List Char)) (s : StoppingCriteria),
    s.current_tokens + inputs.length < s.max_new_tokens →
    nonTerminalInputs s inputs →
    s.run inputs = List.replicate inputs.length (false, none)
  | [], _, _, _ => rfl
  | p :: rest, s, hlen, H => by
    have h0 := H 0 (by simp)
    simp only [List.getD_cons_zero, List.take_zero, StoppingCriteria.runEnd] at h0
    have hcall : (s.call p.1 p.2).2 = (false, none) := by
      apply call_nonterminal
      · simp only [List.length_cons] at hlen; omega
      · exact h0.1
      · exact h0.2
    obtain ⟨hf1, hf2, hf3, hf4, hf5⟩ := call_fields s p.1 p.2
    have hrest : nonTerminalInputs (s.call p.1 p.2).1 rest := by
      intro k hk
      have hk1 := H (k + 1) (by simp only [List.length_cons]; omega)
      simp only [List.getD_cons_succ, List.take_succ_cons, StoppingCriteria.runEnd] at hk1
      refine ⟨?_, ?_⟩
      · rw [hf5, hf2]; exact hk1.1
      · intro c hc
        rw [hf3] at hc
        exact hk1.2 c hc
    have hrec := run_all_nonterminal rest (s.call p.1 p.2).1
      (by rw [hf1, hf4]; simp only [List.length_cons] at hlen; omega) hrest
    simp only [StoppingCriteria.run, hrec, List.length_cons, List.replicate_succ]
    rw [show ((s.call p.1 p.2).2.1, (s.call p.1 p.2).2.2) = (s.call p.1 p.2).2 from rfl, hcall]

/-- An element of a replicated list below the length is the replicated
value. -/
theorem getD_replicate {α : Type} (a d : α) :
    ∀ (n k : Nat), k < n → (List.replicate n a).getD k d = a
  | n + 1, 0, _ => rfl
  | n + 1, k + 1, h => by
    simpa [List.replicate_succ] using getD_replicate a d n k (by omega)

/-- C5: for a fresh StoppingCriteria with max_new_tokens = N, along any
input sequence of length N on which neither the eos check nor a
stop-sequence check fires during the first N - 1 calls, every one of the
first N - 1 calls is non-terminal and the Nth call returns terminal with
reason LENGTH.  The Nth input is unconstrained, so the conclusion holds in
particular when the Nth token is the eos token: the length check is
evaluated first and wins the tie. -/
theorem stoppingCriteria_length_exactly_at_N
    (eos : Int) (stops : List StopSequenceCriteria) (N : Nat) (ignore : Bool)
    (inputs : List (Int × List Char))
    (hN : 1 ≤ N) (hlen : inputs.length = N)
    (H : nonTerminalInputs (StoppingCriteria.init eos stops N ignore) (inputs.take (N - 1))) :
    (∀ k, k < N - 1 →
      ((StoppingCriteria.init eos stops N ignore).run inputs).getD k (true, none) =
        (false, none)) ∧
    ((StoppingCriteria.init eos stops N ignore).run inputs).getD (N - 1) (false, none) =
      (true, some FinishReason.FINISH_REASON_LENGTH) := by
  set s0 := StoppingCriteria.init eos stops N ignore with hs0
  have hta : (inputs.take (N - 1)).length = N - 1 := by
    rw [List.length_take]; omega
  have hfirst : s0.run (inputs.take (N - 1)) = List.replicate (N - 1) (false, none) := by
    have hrec := run_all_nonterminal (inputs.take (N - 1)) s0
      (by rw [hs0]; simp [StoppingCriteria.init, hta]; omega) H
    rw [hta] at hrec
    exact hrec
  have hsplitrun : s0.run inputs =
      s0.run (inputs.take (N - 1)) ++ (s0.runEnd (inputs.take (N - 1))).run
        (inputs.drop (N - 1)) := by
    conv_lhs => rw [← List.take_append_drop (N - 1) inputs]
    exact run_append _ _ _
  have hlenfirst : (s0.run (inputs.take (N - 1))).length = N - 1 := by
    rw [run_length, hta]
  constructor
  · intro k hk
    rw [hsplitrun, List.getD_append _ _ _ _ (by omega), hfirst, getD_replicate _ _ _ _ hk]
  · rw [hsplitrun]
    have hdroplen : (inputs.drop (N - 1)).length = 1 := by
      rw [List.length_drop]; omega
    obtain ⟨q, tail, hq⟩ : ∃ q tail, inputs.drop (N - 1) = q :: tail := by
      cases hd : inputs.drop (N - 1) with
      | nil => rw [hd] at hdroplen; simp at hdroplen
      | cons q tail => exact ⟨q, tail, rfl⟩
    obtain ⟨g1, _, _, g4, _⟩ := runEnd_fields (inputs.take (N - 1)) s0
    have hcur : (s0.runEnd (inputs.take (N - 1))).current_tokens = N - 1 := by
      rw [g1, hta, hs0]; simp [StoppingCriteria.init]
    have hmax : (s0.runEnd (inputs.take (N - 1))).max_new_tokens = N := by
      rw [g4, hs0]; simp [StoppingCriteria.init]
    have hterm := call_length (s0.runEnd (inputs.take (N - 1))) q.1 q.2
      (by rw [hcur, hmax]; omega)
    rw [hq]
    simp only [StoppingCriteria.run]
    rw [List.getD_append_right _ _ _ _ (by omega)]
    rw [hlenfirst, Nat.sub_self]
    simp only [List.getD_cons_zero]
    rw [show ((s0.runEnd (inputs.take (N - 1))).call q.1 q.2).2 =
      (((s0.runEnd (inputs.take (N - 1))).call q.1 q.2).2.1,
        ((s0.runEnd (inputs.take (N - 1))).call q.1 q.2).2.2) from rfl] at hterm
    rw [Prod.mk.injEq] at hterm
    rw [hterm.1, hterm.2]

/-- C5 witness: budget two, the first token is not the eos token and no
stop sequence matches, the second token is the eos token itself; the
second call is terminal with reason LENGTH. -/
theorem stoppingCriteria_length_exactly_at_N_witness :
    (1 ≤ 2 ∧ ([((1 : Int), ['a']), ((5 : Int), ['b'])].length = 2) ∧
      nonTerminalInputs (StoppingCriteria.init 5 [StopSequenceCriteria.ofStop ['q']] 2 false)
        ([((1 : Int), ['a']), ((5 : Int), ['b'])].take 1)) ∧
    ((StoppingCriteria.init 5 [StopSequenceCriteria.ofStop ['q']] 2 false).run
        [((1 : Int), ['a']), ((5 : Int), ['b'])]).getD 1 (false, none) =
      (true, some FinishReason.FINISH_REASON_LENGTH) :=
  ⟨⟨by decide, by decide, by decide⟩,
    (stoppingCriteria_length_exactly_at_N 5 [StopSequenceCriteria.ofStop ['q']] 2 false
      [((1 : Int), ['a']), ((5 : Int), ['b'])] (by decide) (by decide) (by decide)).2⟩

/-- C9: with max_new_tokens = 0 the very first call is already terminal
with reason LENGTH, whatever token and text are passed: the incremented
counter 1 satisfies the comparison against 0. -/
theorem stoppingCriteria_zero_budget (eos : Int) (stops : List StopSequenceCriteria)
    (ignore : Bool) (tok : Int) (txt : List Char) :
    ((StoppingCriteria.init eos stops 0 ignore).call tok txt).2 =
      (true, some FinishReason.FINISH_REASON_LENGTH) :=
  call_length _ _ _ (by simp [StoppingCriteria.init])

/-- Length of the longest common prefix of two token lists. -/
def lcpLen : List Int → List Int → Nat
  | a :: as, b :: bs => if a = b then lcpLen as bs + 1 else 0
  | _, _ => 0

/-- The acceptance walk in the speculative-validation loop of
HeterogeneousNextTokenChooser.__call__: each true comparison increments
the flat index and the accepted count and appends the new index; the first
false comparison leaves the loop. -/
def acceptLoop : Nat → Nat → List Nat → List Bool → Nat × List Nat
  | _, accepted, acc, [] => (accepted, acc)
  | index, accepted, acc, valid :: rest =>
    if valid then acceptLoop (index + 1) (accepted + 1) (acc ++ [index + 1]) rest
    else (accepted, acc)

/-- Validation of one sequence: the elementwise comparison of the chosen
ids without their last entry against the proposed ids, walked with
accepted = 1 and the start index already collected (the first token is
always accepted). -/
def validateSequence (startIndex : Nat) (chosen proposed : List Int) : Nat × List Nat :=
  let validate := List.zipWith (fun a b => decide (a = b)) chosen.dropLast proposed
  acceptLoop startIndex 1 [startIndex] validate

/-- The slice of the flat next_ids belonging to sequence i, python
next_ids[i*S:(i+1)*S]. -/
def chosenChunk (nextIds : List Int) (S i : Nat) : List Int :=
  (nextIds.drop (i * S)).take S

/-- The speculative-validation block of
HeterogeneousNextTokenChooser.__call__, entered when speculated_ids is not
None: S is one more than the number of speculative positions and
B = next_ids length divided by S; per sequence the walk yields the
accepted count, and the walks of all sequences contribute their flat
indices in order.  Returns (accepted_ids, indices). -/
def speculativeValidation (nextIds : List Int) (speculatedIds : List (List Int)) :
    List Nat × List Nat :=
  let S := (speculatedIds.headD []).length + 1
  let B := nextIds.length / S
  let results := (List.range B).map (fun i =>
    validateSequence (i * S) (chosenChunk nextIds S i) (speculatedIds.getD i []))
  (results.map Prod.fst, (results.map Prod.snd).flatten)

/-- Length of the leading run of true comparisons. -/
def walkLen : List Bool → Nat
  | [] => 0
  | b :: rest => if b then walkLen rest + 1 else 0

/-- Closed form of the acceptance walk: it adds the length of the leading
true run to the accepted count and appends the consecutive indices that
follow the start index. -/
theorem acceptLoop_eq : ∀ (bs : List Bool) (index accepted : Nat) (acc : List Nat),
    acceptLoop index accepted acc bs =
      (accepted + walkLen bs, acc ++ (List.range (walkLen bs)).map (fun k => index + 1 + k))
  | [], _, _, _ => by simp [acceptLoop, walkLen]
  | b :: rest, index, accepted, acc => by
    cases b with
    | false => simp [acceptLoop, walkLen]
    | true =>
      rw [show acceptLoop index accepted acc (true :: rest) =
        acceptLoop (index + 1) (accepted + 1) (acc ++ [index + 1]) rest from rfl]
      rw [acceptLoop_eq rest (index + 1) (accepted + 1) (acc ++ [index + 1])]
      rw [show walkLen (true :: rest) = walkLen rest + 1 from rfl]
      rw [Prod.mk.injEq]
      refine ⟨by omega, ?_⟩
      rw [List.range_succ_eq_map, List.map_cons, List.append_assoc]
      simp only [List.map_map, List.singleton_append, Nat.add_zero]
      congr 1
      congr 1
      refine congrArg₂ List.map ?_ rfl
      funext k
      simp only [Function.comp_apply, Nat.succ_eq_add_one]
      omega

/-- The leading true run of the elementwise equality comparison is the
longest common prefix. -/
theorem walkLen_zipWith_eq_lcpLen : ∀ (xs ys : List Int),
    walkLen (List.zipWith (fun a b => decide (a = b)) xs ys) = lcpLen xs ys
  | [], [] => rfl
  | [], _ :: _ => rfl
  | _ :: _, [] => rfl
  | x :: xs, y :: ys => by
    simp only [List.zipWith_cons_cons, walkLen, lcpLen]
    by_cases h : x = y
    · simp [h, walkLen_zipWith_eq_lcpLen xs ys]
    · simp [h]

/-- Inside the longest common prefix the two lists agree pointwise. -/
theorem lcpLen_agree : ∀ (xs ys : List Int) (k : Nat), k < lcpLen xs ys →
    xs.getD k 0 = ys.getD k 0
  | [], _, k, h => by simp [lcpLen] at h
  | _ :: _, [], k, h => by simp [lcpLen] at h
  | x :: xs, y :: ys, k, h => by
    simp only [lcpLen] at h
    by_cases hxy : x = y
    · rw [if_pos hxy] at h
      cases k with
      | zero => simpa using hxy
      | succ k => simpa using lcpLen_agree xs ys k (by omega)
    · rw [if_neg hxy] at h; omega

/-- The longest common prefix is no longer than the left list. -/
theorem lcpLen_le_left : ∀ (xs ys : List Int), lcpLen xs ys ≤ xs.length
  | [], _ => by simp [lcpLen]
  | _ :: _, [] => by simp [lcpLen]
  | x :: xs, y :: ys => by
    simp only [lcpLen, List.length_cons]
    by_cases h : x = y
    · rw [if_pos h]
      have := lcpLen_le_left xs ys
      omega
    · rw [if_neg h]; omega

/-- An element of dropLast below its length is the element of the original
list. -/
theorem getD_dropLast {α : Type} (l : List α) (d : α) (k : Nat) (h : k < l.length - 1) :
    l.dropLast.getD k d = l.getD k d := by
  rw [List.getD_eq_getElem _ _ (by rw [List.length_dropLast]; omega),
    List.getD_eq_getElem _ _ (by omega), List.getElem_dropLast]

/-- An element of a mapped range below the bound evaluates the function. -/
theorem getD_map_range {α : Type} (g : Nat → α) (d : α) (B i : Nat) (h : i < B) :
    ((List.range B).map g).getD i d = g i := by
  rw [List.getD_eq_getElem _ _ (by simpa using h)]
  rw [List.getElem_map]
  congr 1
  exact List.getElem_range _ _

/-- The index list of one validated sequence is the consecutive range of
length the accepted count, shifted to the start index. -/
theorem validateSequence_snd (start : Nat) (chosen proposed : List Int) :
    (validateSequence start chosen proposed).2 =
      (List.range (validateSequence start chosen proposed).1).map (fun k => start + k) := by
  unfold validateSequence
  rw [acceptLoop_eq]
  simp only
  rw [show 1 + walkLen (List.zipWith (fun a b => decide (a = b)) chosen.dropLast proposed) =
    walkLen (List.zipWith (fun a b => decide (a = b)) chosen.dropLast proposed) + 1 from by omega]
  rw [List.range_succ_eq_map, List.map_cons]
  simp only [List.map_map, List.singleton_append, Nat.add_zero]
  congr 1
  refine congrArg₂ List.map ?_ rfl
  funext k
  simp only [Function.comp_apply, Nat.succ_eq_add_one]
  omega

/-- C1: in a speculative step, for every sequence i the first chosen token
is accepted unconditionally, the accepted count is one plus the length of
the longest common prefix of the proposed ids with the chosen ids short of
the last one, the gathered flat indices are exactly the first
accepted-count positions of each sequence in order, and every comparison
inside the accepted run matched: for every k with k + 1 below the accepted
count the chosen token at k equals its proposed token, so no position is
accepted on a mismatching comparison. -/
theorem speculative_validation_accepted_lcp
    (S B : Nat) (nextIds : List Int) (speculatedIds : List (List Int))
    (hS : 2 ≤ S) (hB : 1 ≤ B)
    (hlen : nextIds.length = B * S)
    (hspec : speculatedIds.length = B)
    (hrect : ∀ p ∈ speculatedIds, p.length = S - 1)
    (i : Nat) (hi : i < B) :
    ((speculativeValidation nextIds speculatedIds).1.getD i 0 =
      1 + lcpLen (chosenChunk nextIds S i).dropLast (speculatedIds.getD i [])) ∧
    (1 ≤ (speculativeValidation nextIds speculatedIds).1.getD i 0) ∧
    ((speculativeValidation nextIds speculatedIds).2 =
      ((List.range B).map (fun j =>
        (List.range ((speculativeValidation nextIds speculatedIds).1.getD j 0)).map
          (fun k => j * S + k))).flatten) ∧
    (∀ k, k + 1 < (speculativeValidation nextIds speculatedIds).1.getD i 0 →
      (chosenChunk nextIds S i).getD k 0 = (speculatedIds.getD i []).getD k 0) := by
  have hSpos : 0 < S := by omega
  have hhead : (speculatedIds.headD []).length + 1 = S := by
    cases hsp : speculatedIds with
    | nil =>
      rw [hsp] at hspec
      simp only [List.length_nil] at hspec
      omega
    | cons p ps =>
      have hp : p.length = S - 1 := hrect p (by rw [hsp]; exact List.mem_cons_self p ps)
      simp only [List.headD_cons]
      omega
  have hBdiv : nextIds.length / ((speculatedIds.headD []).length + 1) = B := by
    rw [hhead, hlen]
    exact Nat.mul_div_cancel B hSpos
  have hval : speculativeValidation nextIds speculatedIds =
      (((List.range B).map (fun j =>
        validateSequence (j * S) (chosenChunk nextIds S j) (speculatedIds.getD j []))).map
          Prod.fst,
      (((List.range B).map (fun j =>
        validateSequence (j * S) (chosenChunk nextIds S j) (speculatedIds.getD j []))).map
          Prod.snd).flatten) := by
    unfold speculativeValidation
    dsimp only
    rw [hBdiv, hhead]
  have hfst : ∀ j, j < B → (speculativeValidation nextIds speculatedIds).1.getD j 0 =
      (validateSequence (j * S) (chosenChunk nextIds S j) (speculatedIds.getD j [])).1 := by
    intro j hj
    rw [hval]
    simp only [List.map_map]
    exact getD_map_range _ _ _ _ hj
  have hacc : ∀ j, j < B →
      (validateSequence (j * S) (chosenChunk nextIds S j) (speculatedIds.getD j [])).1 =
      1 + lcpLen (chosenChunk nextIds S j).dropLast (speculatedIds.getD j []) := by
    intro j hj
    unfold validateSequence
    rw [acceptLoop_eq]
    simp only
    rw [walkLen_zipWith_eq_lcpLen]
  refine ⟨?_, ?_, ?_, ?_⟩
  · rw [hfst i hi, hacc i hi]
  · rw [hfst i hi, hacc i hi]; omega
  · have hrhs : ((List.range B).map (fun j =>
        (List.range ((speculativeValidation nextIds speculatedIds).1.getD j 0)).map
          (fun k => j * S + k))) =
      ((List.range B).map (fun j =>
        (List.range ((validateSequence (j * S) (chosenChunk nextIds S j)
          (speculatedIds.getD j [])).1)).map (fun k => j * S + k))) := by
      refine List.map_congr_left ?_
      intro j hj
      rw [List.mem_range] at hj
      rw [hfst j hj]
    rw [hrhs, hval]
    simp only [List.map_map]
    congr 1
    refine List.map_congr_left ?_
    intro j hj
    rw [List.mem_range] at hj
    simp only [Function.comp_apply]
    rw [validateSequence_snd]
  · intro k hk
    rw [hfst i hi, hacc i hi] at hk
    have hklcp : k < lcpLen (chosenChunk nextIds S i).dropLast (speculatedIds.getD i []) := by
      omega
    have hchunklen : (chosenChunk nextIds S i).length = S := by
      unfold chosenChunk
      rw [List.length_take, List.length_drop, hlen]
      have h2 : (i + 1) * S ≤ B * S := Nat.mul_le_mul_right S (by omega)
      rw [Nat.succ_mul] at h2
      omega
    have hkd : k < (chosenChunk nextIds S i).length - 1 := by
      have h1 := lcpLen_le_left (chosenChunk nextIds S i).dropLast (speculatedIds.getD i [])
      rw [List.length_dropLast] at h1
      omega
    rw [← getD_dropLast _ _ _ hkd]
    exact lcpLen_agree _ _ _ hklcp

/-- C1 witness: one sequence, two speculative positions, chosen ids
[5, 7, 9] against proposed [5, 8]: the first token is accepted, the
comparison 7 = 5 at position zero of the walk succeeds for 5 = 5, fails at
8, so the accepted count is 2 = 1 + 1. -/
theorem speculative_validation_accepted_lcp_witness :
    (2 ≤ 3 ∧ 1 ≤ 1 ∧ ([(5 : Int), 7, 9].length = 1 * 3) ∧
      ([[(5 : Int), 8]].length = 1) ∧ (∀ p ∈ [[(5 : Int), 8]], p.length = 3 - 1) ∧ 0 < 1) ∧
    ((speculativeValidation [5, 7, 9] [[5, 8]]).1.getD 0 0 =
      1 + lcpLen (chosenChunk [5, 7, 9] 3 0).dropLast ([[(5 : Int), 8]].getD 0 []) ∧
      (speculativeValidation [5, 7, 9] [[5, 8]]).1.getD 0 0 = 2) :=
  ⟨⟨by decide, by decide, by decide, by decide, by decide, by decide⟩,
    (speculative_validation_accepted_lcp 3 1 [5, 7, 9] [[5, 8]] (by decide) (by decide)
      (by decide) (by decide) (by decide) 0 (by decide)).1,
    by decide⟩

/-- C2 counterexample: with speculated_ids [[7, 8]] and chosen ids
[5, 7, 9] the comparison of chosen[:-1] = [5, 7] with proposed = [7, 8]
fails already at the first position (5 is not 7), so the step returns
accepted_count [1], not [2] as the claim states. -/
theorem speculative_scenario_d_counterexample :
    (speculativeValidation [5, 7, 9] [[7, 8]]).1 = [1] ∧
    (speculativeValidation [5, 7, 9] [[7, 8]]).1 ≠ [2] := by decide

/-- C2 (amended): for speculated_ids [[7, 8]] and chosen ids [5, 7, 9] the
step returns accepted_count [1]: only the unconditionally accepted first
chosen token 5 is gathered. -/
theorem speculative_scenario_d :
    (speculativeValidation [5, 7, 9] [[7, 8]]).1 = [1] ∧
    (speculativeValidation [5, 7, 9] [[7, 8]]).2 = [0] ∧
    ((speculativeValidation [5, 7, 9] [[7, 8]]).2.map
      (fun j => [(5 : Int), 7, 9].getD j 0)) = [5] := by decide

/-- Sampling of the source: it owns a torch generator seeded with
manual_seed at construction.  The generator is modelled as its seed
together with the number of draws already taken from its stream; a fresh
generator starts at stream position zero and each call advances it by
one. -/
structure Sampling where
  seed : Nat
  generatorState : Nat
  deriving DecidableEq

/-- Constructor of Sampling: a fresh generator seeded with the seed. -/
def Sampling.make (seed : Nat) : Sampling :=
  ⟨seed, 0⟩

/-- One draw from a Sampling instance, with the value of a draw given by
an arbitrary deterministic stream function of the seed and the stream
position (the torch generator is deterministic given both). -/
def Sampling.callWith (stream : Nat → Nat → Nat) (s : Sampling) : Nat × Sampling :=
  (stream s.seed s.generatorState, { s with generatorState := s.generatorState + 1 })

/-- The sequence of the next n draws from a Sampling instance. -/
def drawSeqWith (stream : Nat → Nat → Nat) (s : Sampling) : Nat → List Nat
  | 0 => []
  | n + 1 =>
    let r := s.callWith stream
    r.1 :: drawSeqWith stream r.2 n

/-- HeterogeneousSampling of the source: seeds, the greedy row indices and
the mapping from sampling row indices to their Sampling instances,
modelled as an association list in the construction order of the python
dict. -/
structure HeterogeneousSampling where
  seeds : List Nat
  greedy_indices : List Nat
  sampling_mapping : List (Nat × Sampling)
  deriving DecidableEq

/-- The enumerated construction loop of HeterogeneousSampling.__init__:
row i becomes a sampling row with a fresh generator when do_sample[i]
holds, a greedy row otherwise. -/
def buildMapping : Nat → List (Bool × Nat) → List (Nat × Sampling)
  | _, [] => []
  | i, (sample, seed) :: rest =>
    if sample then (i, Sampling.make seed) :: buildMapping (i + 1) rest
    else buildMapping (i + 1) rest

/-- Greedy indices collected by the same loop. -/
def buildGreedy : Nat → List (Bool × Nat) → List Nat
  | _, [] => []
  | i, (sample, _) :: rest =>
    if sample then buildGreedy (i + 1) rest
    else i :: buildGreedy (i + 1) rest

/-- Constructor of HeterogeneousSampling from do_sample and seeds (zipped,
as in python). -/
def HeterogeneousSampling.make (do_sample : List Bool) (seeds : List Nat) :
    HeterogeneousSampling :=
  { seeds := seeds
    greedy_indices := buildGreedy 0 (List.zip do_sample seeds)
    sampling_mapping := buildMapping 0 (List.zip do_sample seeds) }

/-- The filter loop of HeterogeneousSampling.filter: for i, idx in
enumerate(indices), a retained row idx that was sampling keeps its very
Sampling object under the new dense key i, a retained non-sampling row
contributes i to the new greedy indices. -/
def filterLoop (old : List (Nat × Sampling)) : Nat → List Nat → List (Nat × Sampling) × List Nat
  | _, [] => ([], [])
  | i, idx :: rest =>
    let r := filterLoop old (i + 1) rest
    match old.lookup idx with
    | some s => ((i, s) :: r.1, r.2)
    | none => (r.1, i :: r.2)

/-- HeterogeneousSampling.filter: re-key the sampling mapping to the new
dense index space and rebuild the greedy index list; seeds are not
touched by this method in the source. -/
def HeterogeneousSampling.filter (hs : HeterogeneousSampling) (indices : List Nat) :
    HeterogeneousSampling :=
  { seeds := hs.seeds
    greedy_indices := (filterLoop hs.sampling_mapping 0 indices).2
    sampling_mapping := (filterLoop hs.sampling_mapping 0 indices).1 }

/-- The token selector held by a chooser: plain Greedy, or mixed
greedy/sampling. -/
inductive Choice where
  | greedy
  | hetero (hs : HeterogeneousSampling)
  deriving DecidableEq

/-- The do_sample updates of HeterogeneousNextTokenChooser.__init__: each
warper block runs only when some row triggers it, and then marks every
triggering row as sampling. -/
def warpTemperature (temperature : List ℚ) (do_sample : List Bool) : List Bool :=
  if temperature.any (fun x => decide (x ≠ 1)) then
    List.zipWith (fun x sample => sample || decide (x ≠ 1)) temperature do_sample
  else do_sample

/-- The top_k block of the same update. -/
def warpTopK (top_k : List Int) (do_sample : List Bool) : List Bool :=
  if top_k.any (fun x => decide (x ≠ 0)) then
    List.zipWith (fun x sample => sample || decide (x ≠ 0)) top_k do_sample
  else do_sample

/-- The top_p block of the same update. -/
def warpTopP (top_p : List ℚ) (do_sample : List Bool) : List Bool :=
  if top_p.any (fun x => decide (x < 1)) then
    List.zipWith (fun x sample => sample || decide (x < 1)) top_p do_sample
  else do_sample

/-- The typical_p block of the same update. -/
def warpTypicalP (typical_p : List ℚ) (do_sample : List Bool) : List Bool :=
  if typical_p.any (fun x => decide (x < 1)) then
    List.zipWith (fun x sample => sample || decide (x < 1)) typical_p do_sample
  else do_sample

/-- The effective do_sample vector after the four warper blocks, in their
source order: temperature, top_k, top_p, typical_p. -/
def effectiveDoSample (temperature : List ℚ) (top_k : List Int)
    (top_p typical_p : List ℚ) (do_sample : List Bool) : List Bool :=
  warpTypicalP typical_p (warpTopP top_p (warpTopK top_k (warpTemperature temperature do_sample)))

/-- HeterogeneousNextTokenChooser state relevant to selection: the
effective do_sample vector, the seeds, and the token selector.  The
watermark, repetition-penalty and warper transforms are external
collaborators and only their do_sample bookkeeping is modelled. -/
structure HeterogeneousNextTokenChooser where
  do_sample : List Bool
  seeds : List Nat
  choice : Choice
  deriving DecidableEq

/-- Constructor of HeterogeneousNextTokenChooser: update do_sample through
the warper blocks, then select HeterogeneousSampling when any row samples
and Greedy otherwise. -/
def HeterogeneousNextTokenChooser.make (temperature : List ℚ) (top_k : List Int)
    (top_p typical_p : List ℚ) (do_sample : List Bool) (seeds : List Nat) :
    HeterogeneousNextTokenChooser :=
  let ds := effectiveDoSample temperature top_k top_p typical_p do_sample
  { do_sample := ds
    seeds := seeds
    choice := if ds.any id then Choice.hetero (HeterogeneousSampling.make ds seeds)
      else Choice.greedy }

/-- HeterogeneousNextTokenChooser.filter: keep the retained seeds and
do_sample entries; when some retained row samples the selector is filtered
in place, otherwise the selector becomes plain Greedy.  The source calls
self.choice.filter only in the sampling case, where the constructor
invariant makes the selector a HeterogeneousSampling. -/
def HeterogeneousNextTokenChooser.filter (c : HeterogeneousNextTokenChooser)
    (indices : List Nat) : HeterogeneousNextTokenChooser :=
  let seeds := indices.map (fun i => c.seeds.getD i 0)
  let ds := indices.map (fun i => c.do_sample.getD i false)
  { do_sample := ds
    seeds := seeds
    choice :=
      if ds.any id then
        match c.choice with
        | Choice.hetero hs => Choice.hetero (hs.filter indices)
        | Choice.greedy => Choice.greedy
      else Choice.greedy }

/-- The single-request token selector. -/
inductive SingleChoice where
  | greedy
  | sampling (s : Sampling)
  deriving DecidableEq

/-- NextTokenChooser state relevant to selection: whether a static warper
was built and which selector was chosen.  The watermark and
repetition-penalty processors and the static warper itself are external
collaborators. -/
structure NextTokenChooser where
  has_static_warper : Bool
  choice : SingleChoice
  deriving DecidableEq

/-- Constructor of NextTokenChooser: has_warpers is true when any
warper-triggering parameter is present and non-default; the selector
samples iff do_sample or has_warpers. -/
def NextTokenChooser.make (temperature : Option ℚ) (top_k : Option Int)
    (top_p typical_p : Option ℚ) (do_sample : Bool) (seed : Nat) : NextTokenChooser :=
  let has_warpers :=
    (match temperature with | some t => decide (t ≠ 1) | none => false) ||
    (match top_k with | some k => decide (k ≠ 0) | none => false) ||
    (match top_p with | some p => decide (p < 1) | none => false) ||
    (match typical_p with | some p => decide (p < 1) | none => false)
  { has_static_warper := has_warpers
    choice := if do_sample || has_warpers then SingleChoice.sampling (Sampling.make seed)
      else SingleChoice.greedy }

/-- Whether row i of the heterogeneous chooser selects by a per-row seeded
sampler (rather than greedy selection), and with which sampler. -/
def rowSampler (c : HeterogeneousNextTokenChooser) (i : Nat) : Option Sampling :=
  match c.choice with
  | Choice.greedy => none
  | Choice.hetero hs => hs.sampling_mapping.lookup i

/-- An element of the common warper-block shape: when some row triggers
the predicate, each row receives its own trigger or-ed in; when none
does, every trigger is false and the vector is unchanged, so the element
is the or in both cases. -/
theorem stage_getD {α : Type} (d : α) (p : α → Bool) (xs : List α) (ds : List Bool)
    (hlen : xs.length = ds.length) (i : Nat) (hi : i < ds.length) :
    (if xs.any p then List.zipWith (fun x sample => sample || p x) xs ds else ds).getD i false =
      (ds.getD i false || p (xs.getD i d)) := by
  split
  · rw [List.getD_eq_getElem _ _ (by rw [List.length_zipWith]; omega)]
    rw [List.getElem_zipWith, List.getD_eq_getElem ds false hi,
      List.getD_eq_getElem xs d (by omega)]
  · rename_i h
    have hmem : xs.getD i d ∈ xs := by
      rw [List.getD_eq_getElem xs d (by omega)]
      exact List.getElem_mem _
    have hx : p (xs.getD i d) = false := by
      have hfalse : xs.any p = false := by
        cases hc : xs.any p with
        | false => rfl
        | true => exact absurd hc h
      have := List.any_eq_false.mp hfalse _ hmem
      cases hc : p (xs.getD i d) with
      | false => rfl
      | true => exact absurd hc this
    rw [hx, Bool.or_false]

/-- The common warper-block shape preserves the length. -/
theorem stage_length {α : Type} (p : α → Bool) (xs : List α) (ds : List Bool)
    (hlen : xs.length = ds.length) :
    (if xs.any p then List.zipWith (fun x sample => sample || p x) xs ds else ds).length =
      ds.length := by
  split
  · rw [List.length_zipWith]; omega
  · rfl

/-- Element form of the effective do_sample vector: row i samples iff it
asked to or any of its warper-triggering fields is non-default. -/
theorem effectiveDoSample_getD (temperature : List ℚ) (top_k : List Int)
    (top_p typical_p : List ℚ) (do_sample : List Bool) (n : Nat)
    (h1 : temperature.length = n) (h2 : top_k.length = n) (h3 : top_p.length = n)
    (h4 : typical_p.length = n) (h5 : do_sample.length = n) (i : Nat) (hi : i < n) :
    (effectiveDoSample temperature top_k top_p typical_p do_sample).getD i false =
      (do_sample.getD i false || decide (temperature.getD i 1 ≠ 1) ||
        decide (top_k.getD i 0 ≠ 0) || decide (top_p.getD i 1 < 1) ||
        decide (typical_p.getD i 1 < 1)) := by
  have l1 : (warpTemperature temperature do_sample).length = n := by
    unfold warpTemperature
    rw [stage_length _ _ _ (by omega)]; omega
  have l2 : (warpTopK top_k (warpTemperature temperature do_sample)).length = n := by
    unfold warpTopK
    rw [stage_length _ _ _ (by omega)]; omega
  have l3 : (warpTopP top_p (warpTopK top_k (warpTemperature temperature do_sample))).length
      = n := by
    unfold warpTopP
    rw [stage_length _ _ _ (by omega)]; omega
  unfold effectiveDoSample warpTypicalP
  rw [stage_getD 1 _ _ _ (by omega) i (by omega)]
  unfold warpTopP
  rw [stage_getD 1 _ _ _ (by omega) i (by omega)]
  unfold warpTopK
  rw [stage_getD 0 _ _ _ (by omega) i (by omega)]
  unfold warpTemperature
  rw [stage_getD 1 _ _ _ (by omega) i (by omega)]

/-- Keys produced by the construction loop start at its counter, so
smaller keys are absent. -/
theorem lookup_buildMapping_lt : ∀ (l : List (Bool × Nat)) (j m : Nat), m < j →
    (buildMapping j l).lookup m = none
  | [], _, _, _ => rfl
  | (sample, seed) :: rest, j, m, h => by
    unfold buildMapping
    split
    · rw [List.lookup_cons]
      have hne : (m == j) = false := by simp; omega
      rw [hne]
      exact lookup_buildMapping_lt rest (j + 1) m (by omega)
    · exact lookup_buildMapping_lt rest (j + 1) m (by omega)

/-- Lookup in the constructed sampling mapping: the row at offset k from
the loop counter is present with a fresh generator seeded by its seed
exactly when its do_sample entry holds. -/
theorem lookup_buildMapping : ∀ (l : List (Bool × Nat)) (j k : Nat), k < l.length →
    (buildMapping j l).lookup (j + k) =
      (if (l.getD k (false, 0)).1 then some (Sampling.make (l.getD k (false, 0)).2)
        else none)
  | [], _, k, h => by simp at h
  | (sample, seed) :: rest, j, 0, _ => by
    unfold buildMapping
    simp only [List.getD_cons_zero, Nat.add_zero]
    split
    · simp [List.lookup_cons]
    · exact lookup_buildMapping_lt rest (j + 1) j (by omega)
  | (sample, seed) :: rest, j, k + 1, h => by
    unfold buildMapping
    simp only [List.getD_cons_succ]
    have hrec := lookup_buildMapping rest (j + 1) k
      (by simp only [List.length_cons] at h; omega)
    have hshift : j + (k + 1) = (j + 1) + k := by omega
    split
    · have hne : (j + (k + 1) == j) = false := by simp
      simp only [List.lookup_cons, hne]
      rw [hshift, hrec]
    · rw [hshift, hrec]

/-- An element of a zip below both lengths pairs the two elements. -/
theorem getD_zip {α β : Type} (a : List α) (b : List β) (da : α) (db : β) (i : Nat)
    (ha : i < a.length) (hb : i < b.length) :
    (List.zip a b).getD i (da, db) = (a.getD i da, b.getD i db) := by
  rw [List.getD_eq_getElem _ _ (by rw [List.length_zip]; omega), List.getElem_zip,
    List.getD_eq_getElem _ _ ha, List.getD_eq_getElem _ _ hb]

/-- C3: after construction of the heterogeneous chooser, row i holds a
per-row sampler seeded with seeds[i] exactly when do_sample[i] is true or
one of its warper-triggering fields is non-default (temperature not 1,
top_k not 0, top_p below 1, typical_p below 1); otherwise the row has no
sampler, and likewise the single-request chooser samples under the same
condition on its own parameters. -/
theorem chooser_samples_iff (temperature : List ℚ) (top_k : List Int)
    (top_p typical_p : List ℚ) (do_sample : List Bool) (seeds : List Nat) (n : Nat)
    (h1 : temperature.length = n) (h2 : top_k.length = n) (h3 : top_p.length = n)
    (h4 : typical_p.length = n) (h5 : do_sample.length = n) (h6 : seeds.length = n)
    (i : Nat) (hi : i < n)
    (t : ℚ) (k : Int) (p tp : ℚ) (ds1 : Bool) (seed1 : Nat) :
    (rowSampler (HeterogeneousNextTokenChooser.make temperature top_k top_p typical_p
        do_sample seeds) i =
      (if (do_sample.getD i false || decide (temperature.getD i 1 ≠ 1) ||
          decide (top_k.getD i 0 ≠ 0) || decide (top_p.getD i 1 < 1) ||
          decide (typical_p.getD i 1 < 1)) then
        some (Sampling.make (seeds.getD i 0)) else none)) ∧
    ((NextTokenChooser.make (some t) (some k) (some p) (some tp) ds1 seed1).choice =
      (if (ds1 || (decide (t ≠ 1) || decide (k ≠ 0) || decide (p < 1) || decide (tp < 1)))
        then SingleChoice.sampling (Sampling.make seed1) else SingleChoice.greedy)) := by
  constructor
  · have heff := effectiveDoSample_getD temperature top_k top_p typical_p do_sample n
      h1 h2 h3 h4 h5 i hi
    have l1 : (warpTemperature temperature do_sample).length = n := by
      unfold warpTemperature
      rw [stage_length _ _ _ (by omega)]; omega
    have l2 : (warpTopK top_k (warpTemperature temperature do_sample)).length = n := by
      unfold warpTopK
      rw [stage_length _ _ _ (by omega)]; omega
    have l3 : (warpTopP top_p (warpTopK top_k
        (warpTemperature temperature do_sample))).length = n := by
      unfold warpTopP
      rw [stage_length _ _ _ (by omega)]; omega
    have hefflen : (effectiveDoSample temperature top_k top_p typical_p do_sample).length
        = n := by
      unfold effectiveDoSample warpTypicalP
      rw [stage_length _ _ _ (by omega)]; omega
    cases hany : (effectiveDoSample temperature top_k top_p typical_p do_sample).any id with
    | true =>
      have hch : (HeterogeneousNextTokenChooser.make temperature top_k top_p typical_p
          do_sample seeds).choice = Choice.hetero (HeterogeneousSampling.make
          (effectiveDoSample temperature top_k top_p typical_p do_sample) seeds) := by
        simp [HeterogeneousNextTokenChooser.make, hany]
      unfold rowSampler
      rw [hch]
      show List.lookup i
        (HeterogeneousSampling.make
          (effectiveDoSample temperature top_k top_p typical_p do_sample) seeds).sampling_mapping
        = _
      unfold HeterogeneousSampling.make
      dsimp only
      have hzlen : i < (List.zip (effectiveDoSample temperature top_k top_p typical_p
          do_sample) seeds).length := by
        rw [List.length_zip]; omega
      have hlk := lookup_buildMapping
        (List.zip (effectiveDoSample temperature top_k top_p typical_p do_sample) seeds)
        0 i hzlen
      simp only [Nat.zero_add] at hlk
      rw [hlk, getD_zip _ _ _ _ _ (by omega) (by omega)]
      simp only
      rw [heff]
    | false =>
      have hch : (HeterogeneousNextTokenChooser.make temperature top_k top_p typical_p
          do_sample seeds).choice = Choice.greedy := by
        simp [HeterogeneousNextTokenChooser.make, hany]
      have hmem : (effectiveDoSample temperature top_k top_p typical_p do_sample).getD i false
          ∈ effectiveDoSample temperature top_k top_p typical_p do_sample := by
        rw [List.getD_eq_getElem _ _ (by omega)]
        exact List.getElem_mem _
      have hcond := List.any_eq_false.mp hany _ hmem
      simp only [id] at hcond
      rw [heff] at hcond
      unfold rowSampler
      rw [hch]
      show none = _
      rw [if_neg (by
        intro hcontra
        rw [hcontra] at hcond
        exact hcond rfl)]
  · rfl

/-- C3 witness: two rows, all parameters default except temperature 2 on
row 1 with do_sample false everywhere: row 1 gets a sampler seeded with
its seed 4; the single chooser with defaults and do_sample true
samples. -/
theorem chooser_samples_iff_witness :
    ([(1 : ℚ), 2].length = 2 ∧ ([(0 : Int), 0].length = 2) ∧ ([(1 : ℚ), 1].length = 2) ∧
      ([(1 : ℚ), 1].length = 2) ∧ ([false, false].length = 2) ∧ ([3, 4].length = 2) ∧
      1 < 2) ∧
    rowSampler (HeterogeneousNextTokenChooser.make [1, 2] [0, 0] [1, 1] [1, 1]
      [false, false] [3, 4]) 1 = some (Sampling.make 4) ∧
    (NextTokenChooser.make (some 1) (some 0) (some 1) (some 1) true 7).choice =
      SingleChoice.sampling (Sampling.make 7) :=
  ⟨⟨by decide, by decide, by decide, by decide, by decide, by decide, by decide⟩,
    by
      have h := (chooser_samples_iff [1, 2] [0, 0] [1, 1] [1, 1] [false, false] [3, 4] 2
        (by decide) (by decide) (by decide) (by decide) (by decide) (by decide) 1 (by decide)
        1 0 1 1 true 7).1
      rw [h]
      decide,
    by
      have h := (chooser_samples_iff [1, 2] [0, 0] [1, 1] [1, 1] [false, false] [3, 4] 2
        (by decide) (by decide) (by decide) (by decide) (by decide) (by decide) 1 (by decide)
        1 0 1 1 true 7).2
      rw [h]
      decide⟩

/-- New keys produced by the filter loop start at its counter, so smaller
keys are absent. -/
theorem filterLoop_fst_lookup_lt : ∀ (indices : List Nat) (old : List (Nat × Sampling))
    (j m : Nat), m < j → (filterLoop old j indices).1.lookup m = none
  | [], _, _, _, _ => rfl
  | idx :: rest, old, j, m, h => by
    unfold filterLoop
    dsimp only
    cases hl : old.lookup idx with
    | some s =>
      simp only [hl]
      rw [List.lookup_cons]
      have hne : (m == j) = false := by simp; omega
      rw [hne]
      exact filterLoop_fst_lookup_lt rest old (j + 1) m (by omega)
    | none =>
      simp only [hl]
      exact filterLoop_fst_lookup_lt rest old (j + 1) m (by omega)

/-- Lookup in the re-keyed mapping: new key at offset k from the loop
counter resolves to whatever the old mapping held at the retained old
index, the identical Sampling value. -/
theorem filterLoop_fst_lookup : ∀ (indices : List Nat) (old : List (Nat × Sampling))
    (j k : Nat), k < indices.length →
    (filterLoop old j indices).1.lookup (j + k) = old.lookup (indices.getD k 0)
  | [], _, _, k, h => by simp at h
  | idx :: rest, old, j, 0, _ => by
    unfold filterLoop
    dsimp only
    simp only [List.getD_cons_zero, Nat.add_zero]
    cases hl : old.lookup idx with
    | some s =>
      simp only [hl]
      simp [List.lookup_cons]
    | none =>
      simp only [hl]
      exact filterLoop_fst_lookup_lt rest old (j + 1) j (by omega)
  | idx :: rest, old, j, k + 1, h => by
    unfold filterLoop
    dsimp only
    simp only [List.getD_cons_succ]
    have hrec := filterLoop_fst_lookup rest old (j + 1) k
      (by simp only [List.length_cons] at h; omega)
    have hshift : j + (k + 1) = (j + 1) + k := by omega
    cases hl : old.lookup idx with
    | some s =>
      simp only [hl]
      have hne : (j + (k + 1) == j) = false := by simp
      simp only [List.lookup_cons, hne]
      rw [hshift, hrec]
    | none =>
      simp only [hl]
      rw [hshift, hrec]

/-- Membership in the rebuilt greedy index list: exactly the new dense
positions whose retained old row is absent from the old sampling
mapping. -/
theorem filterLoop_snd_mem : ∀ (indices : List Nat) (old : List (Nat × Sampling)) (j m : Nat),
    m ∈ (filterLoop old j indices).2 ↔
      ∃ k, k < indices.length ∧ m = j + k ∧ old.lookup (indices.getD k 0) = none
  | [], old, j, m => by simp [filterLoop]
  | idx :: rest, old, j, m => by
    unfold filterLoop
    dsimp only
    cases hl : old.lookup idx with
    | some s =>
      simp only [hl]
      rw [filterLoop_snd_mem rest old (j + 1) m]
      constructor
      · rintro ⟨k, hk, hm, hnone⟩
        exact ⟨k + 1, by simp only [List.length_cons]; omega, by omega,
          by simpa using hnone⟩
      · rintro ⟨k, hk, hm, hnone⟩
        cases k with
        | zero =>
          rw [List.getD_cons_zero] at hnone
          rw [hl] at hnone
          exact absurd hnone (by simp)
        | succ k =>
          exact ⟨k, by simp only [List.length_cons] at hk; omega, by omega,
            by simpa using hnone⟩
    | none =>
      simp only [hl, List.mem_cons]
      rw [filterLoop_snd_mem rest old (j + 1) m]
      constructor
      · rintro (rfl | ⟨k, hk, hm, hnone⟩)
        · exact ⟨0, by simp, by omega, by simpa using hl⟩
        · exact ⟨k + 1, by simp only [List.length_cons]; omega, by omega,
            by simpa using hnone⟩
      · rintro ⟨k, hk, hm, hnone⟩
        cases k with
        | zero => left; omega
        | succ k =>
          right
          exact ⟨k, by simp only [List.length_cons] at hk; omega, by omega,
            by simpa using hnone⟩

/-- C4: HeterogeneousSampling.filter re-keys the sampling map so that new
dense index k holds exactly the Sampling value (generator state included,
not a reseeded one) that old index indices[k] held; a retained sampling
row therefore produces the identical draw sequence it would have produced
without compaction; a new index is greedy exactly when its retained old
row was absent from the sampling map; and at the chooser level a filter
after which no retained row samples degrades the selector to plain
Greedy. -/
theorem heterogeneous_sampling_filter_preserves
    (hs : HeterogeneousSampling) (indices : List Nat) (k : Nat) (hk : k < indices.length)
    (c : HeterogeneousNextTokenChooser)
    (hnone : ∀ i ∈ indices, c.do_sample.getD i false = false) :
    ((hs.filter indices).sampling_mapping.lookup k =
      hs.sampling_mapping.lookup (indices.getD k 0)) ∧
    (∀ (stream : Nat → Nat → Nat) (n : Nat),
      Option.map (fun s => drawSeqWith stream s n)
          ((hs.filter indices).sampling_mapping.lookup k) =
        Option.map (fun s => drawSeqWith stream s n)
          (hs.sampling_mapping.lookup (indices.getD k 0))) ∧
    (k ∈ (hs.filter indices).greedy_indices ↔
      hs.sampling_mapping.lookup (indices.getD k 0) = none) ∧
    ((c.filter indices).choice = Choice.greedy) := by
  have h1 : (hs.filter indices).sampling_mapping.lookup k =
      hs.sampling_mapping.lookup (indices.getD k 0) := by
    unfold HeterogeneousSampling.filter
    dsimp only
    have hfst := filterLoop_fst_lookup indices hs.sampling_mapping 0 k hk
    simpa using hfst
  refine ⟨h1, fun stream n => by rw [h1], ?_, ?_⟩
  · unfold HeterogeneousSampling.filter
    dsimp only
    rw [filterLoop_snd_mem]
    constructor
    · rintro ⟨k2, hk2, hmk, hnone2⟩
      have hkk : k2 = k := by omega
      subst hkk
      exact hnone2
    · intro hn
      exact ⟨k, hk, by omega, hn⟩
  · unfold HeterogeneousNextTokenChooser.filter
    dsimp only
    have hall : (indices.map (fun i => c.do_sample.getD i false)).any id = false := by
      apply List.any_eq_false.mpr
      intro x hx
      rw [List.mem_map] at hx
      obtain ⟨i, hi, rfl⟩ := hx
      rw [hnone i hi]
      simp
    simp only [hall]
    simp

/-- C4 witness: a map holding two used generators (stream positions 7 and
2); retaining only old row 2 gives new row 0 the very Sampling value with
state 2, not a reseeded one, and filtering a chooser whose retained rows
do not sample yields the Greedy selector. -/
theorem heterogeneous_sampling_filter_preserves_witness :
    (0 < [2].length ∧
      (∀ i ∈ [2],
        (⟨[false, false, false], [1, 2, 3], Choice.greedy⟩ :
          HeterogeneousNextTokenChooser).do_sample.getD i false = false)) ∧
    ((⟨[3, 4, 5], [1], [(0, ⟨3, 7⟩), (2, ⟨5, 2⟩)]⟩ :
        HeterogeneousSampling).filter [2]).sampling_mapping.lookup 0 =
      some (⟨5, 2⟩ : Sampling) ∧
    ((⟨[false, false, false], [1, 2, 3], Choice.greedy⟩ :
        HeterogeneousNextTokenChooser).filter [2]).choice = Choice.greedy :=
  ⟨⟨by decide, by decide⟩,
    by
      have h := (heterogeneous_sampling_filter_preserves
        ⟨[3, 4, 5], [1], [(0, ⟨3, 7⟩), (2, ⟨5, 2⟩)]⟩ [2] 0 (by decide)
        ⟨[false, false, false], [1, 2, 3], Choice.greedy⟩ (by decide)).1
      rw [h]
      decide,
    (heterogeneous_sampling_filter_preserves
      ⟨[3, 4, 5], [1], [(0, ⟨3, 7⟩), (2, ⟨5, 2⟩)]⟩ [2] 0 (by decide)
      ⟨[false, false, false], [1, 2, 3], Choice.greedy⟩ (by decide)).2.2.2⟩

/-- Semantics of torch.cumsum along the last dimension: entry i is the
sum of the first i + 1 entries. -/
def cumsum (l : List Nat) : List Nat :=
  (List.range l.length).map (fun i => (l.take (i + 1)).sum)

/-- Semantics of the index component of torch.max(dim) over a boolean
row: the index of the first maximal element, so the first true when any
entry is true and 0 when every entry is false. -/
def torchBoolFirstMaxIdx (bs : List Bool) : Nat :=
  match bs.findIdx? (fun b => b) with
  | some k => k
  | none => 0

/-- create_n_gram_speculation of the source: per sequence, the seed is the
last accepted token (next_ids indexed at cumsum(accepted_ids) - 1), the
start is one past the index delivered by torch.max over the equality row
(first match, 0 when absent), and the proposal gathers speculate entries
from the history at consecutive indices clamped to the last column. -/
def create_n_gram_speculation (input_ids : List (List Int)) (next_ids : List Int)
    (accepted_ids : List Nat) (speculate : Nat) : List (List Int) :=
  let L := (input_ids.headD []).length
  let B := accepted_ids.length
  (List.range B).map (fun i =>
    let row := input_ids.getD i []
    let seed := next_ids.getD ((cumsum accepted_ids).getD i 0 - 1) 0
    let startIdx := torchBoolFirstMaxIdx (row.map (fun t => decide (t = seed))) + 1
    (List.range speculate).map (fun j => row.getD (min (startIdx + j) (L - 1)) 0))

/-- The proposal the claim describes, written from the words of the spec:
find the MOST RECENT prior occurrence of the seed value in the history
and propose the speculate tokens that followed it, clamped; when the
value never occurred, propose the most recent tail of the history. -/
def nGramClaimProposal (history : List Int) (seed : Int) (speculate : Nat) : List Int :=
  match history.reverse.findIdx? (fun t => decide (t = seed)) with
  | some rk =>
    let pos := history.length - 1 - rk
    (List.range speculate).map (fun j =>
      history.getD (min (pos + 1 + j) (history.length - 1)) 0)
  | none =>
    (List.range speculate).map (fun j =>
      history.getD (min (history.length - speculate + j) (history.length - 1)) 0)

/-- The proposal the code computes, per sequence: start right after the
EARLIEST occurrence of the seed value (after position 0 when the value is
absent) and gather speculate entries with indices clamped to the final
position. -/
def nGramFirstProposal (history : List Int) (seed : Int) (speculate : Nat) : List Int :=
  let pos :=
    match history.findIdx? (fun t => decide (t = seed)) with
    | some k => k
    | none => 0
  (List.range speculate).map (fun j =>
    history.getD (min (pos + 1 + j) (history.length - 1)) 0)

/-- C6 counterexample: history [3, 5, 3, 7], last accepted token 3,
speculate 2.  The code starts after the FIRST occurrence of 3 (index 0)
and proposes [5, 3]; the claim says the most recent occurrence (index 2)
and would propose [7, 7]. -/
theorem n_gram_counterexample :
    create_n_gram_speculation [[3, 5, 3, 7]] [3] [1] 2 = [[5, 3]] ∧
    nGramClaimProposal [3, 5, 3, 7] 3 2 = [7, 7] ∧
    create_n_gram_speculation [[3, 5, 3, 7]] [3] [1] 2 ≠
      [nGramClaimProposal [3, 5, 3, 7] 3 2] := by
  decide

/-- Finding the first true of a mapped predicate row is finding the first
match of the predicate, for any start offset. -/
theorem findIdx_map_id : ∀ (row : List Int) (p : Int → Bool) (i : Nat),
    List.findIdx? (fun b => b) (row.map p) i = List.findIdx? p row i
  | [], _, _ => rfl
  | x :: xs, p, i => by
    simp only [List.map_cons, List.findIdx?_cons]
    split
    · rfl
    · exact findIdx_map_id xs p (i + 1)

/-- The sum of a nonempty prefix of a list of positive numbers is
positive. -/
theorem sum_take_pos : ∀ (l : List Nat) (n : Nat), n < l.length → (∀ x ∈ l, 1 ≤ x) →
    1 ≤ (l.take (n + 1)).sum
  | x :: xs, n, _, hpos => by
    have hx : 1 ≤ x := hpos x (List.mem_cons_self x xs)
    rw [List.take_succ_cons, List.sum_cons]
    omega
  | [], n, h, _ => by simp at h

/-- The last element of a list is its element at length - 1 (both sides
default to 0 on the empty list). -/
theorem getD_length_sub_one {l : List Int} :
    l.getD (l.length - 1) 0 = l.getLastD 0 := by
  rw [List.getLastD_eq_getLast?, List.getLast?_eq_getElem?, List.getD_eq_getElem?_getD]

/-- Indexing the flattened groups at the cumulative count minus one gives
the last element of the group, for nonempty groups. -/
theorem flatten_cumsum_last : ∀ (gs : List (List Int)) (i : Nat), i < gs.length →
    (∀ g ∈ gs, g ≠ []) →
    gs.flatten.getD ((cumsum (gs.map List.length)).getD i 0 - 1) 0 = (gs.getD i []).getLastD 0
  | g :: rest, 0, _, hne => by
    have hg : g ≠ [] := hne g (List.mem_cons_self g rest)
    have hcs : (cumsum ((g :: rest).map List.length)).getD 0 0 = g.length := by
      unfold cumsum
      rw [getD_map_range _ _ _ 0 (by simp)]
      simp
    rw [hcs]
    simp only [List.flatten_cons, List.getD_cons_zero]
    rw [List.getD_append _ _ _ _ (by
      have : 1 ≤ g.length := List.length_pos.mpr hg
      omega)]
    exact getD_length_sub_one
  | g :: rest, i + 1, hi, hne => by
    have hrestne : ∀ x ∈ rest, x ≠ [] := fun x hx => hne x (List.mem_cons_of_mem g hx)
    have hi2 : i < rest.length := by simp only [List.length_cons] at hi; omega
    have hcs : (cumsum ((g :: rest).map List.length)).getD (i + 1) 0 =
        g.length + (cumsum (rest.map List.length)).getD i 0 := by
      unfold cumsum
      rw [getD_map_range _ _ _ (i + 1) (by simp; omega),
        getD_map_range _ _ _ i (by simp; omega)]
      simp only [List.map_cons, List.take_succ_cons, List.sum_cons]
    have hpos : 1 ≤ (cumsum (rest.map List.length)).getD i 0 := by
      unfold cumsum
      rw [getD_map_range _ _ _ i (by simp; omega)]
      refine sum_take_pos _ _ (by simp; omega) ?_
      intro x hx
      rw [List.mem_map] at hx
      obtain ⟨gg, hgg, rfl⟩ := hx
      exact List.length_pos.mpr (hrestne gg hgg)
    rw [hcs]
    simp only [List.flatten_cons, List.getD_cons_succ]
    rw [List.getD_append_right _ _ _ _ (by omega)]
    rw [show g.length + (cumsum (rest.map List.length)).getD i 0 - 1 - g.length =
      (cumsum (rest.map List.length)).getD i 0 - 1 from by omega]
    exact flatten_cumsum_last rest i hi2 hrestne

/-- C6 (amended): per sequence the heuristic seeds with the last accepted
token of that sequence, starts right after the EARLIEST occurrence of the
seed value in the history (after position 0 when the value never
occurred), and proposes the speculate following tokens with indices
clamped to the final history position. -/
theorem n_gram_first_match (gs : List (List Int)) (input_ids : List (List Int))
    (speculate : Nat) (L : Nat)
    (hlen : input_ids.length = gs.length)
    (hL : ∀ r ∈ input_ids, r.length = L)
    (hne : ∀ g ∈ gs, g ≠ [])
    (i : Nat) (hi : i < gs.length) :
    (create_n_gram_speculation input_ids gs.flatten (gs.map List.length) speculate).getD i []
      = nGramFirstProposal (input_ids.getD i []) ((gs.getD i []).getLastD 0) speculate := by
  have hheadL : (input_ids.headD []).length = L := by
    cases hc : input_ids with
    | nil => rw [hc] at hlen; simp at hlen; omega
    | cons r rest =>
      simp only [List.headD_cons]
      exact hL r (by rw [hc]; exact List.mem_cons_self r rest)
  have hrowL : (input_ids.getD i []).length = L := by
    refine hL _ ?_
    rw [List.getD_eq_getElem _ _ (by omega)]
    exact List.getElem_mem _
  unfold create_n_gram_speculation
  dsimp only
  rw [getD_map_range _ _ _ i (by simp; omega)]
  rw [flatten_cumsum_last gs i hi hne]
  unfold nGramFirstProposal torchBoolFirstMaxIdx
  dsimp only
  rw [findIdx_map_id, hheadL, hrowL]

/-- C6 amended-theorem witness: one sequence with history [3, 5, 3, 7],
one accepted token 3: the code proposes [5, 3], the tokens after the
earliest occurrence of 3. -/
theorem n_gram_first_match_witness :
    (([[(3 : Int)]] : List (List Int)).length = 1 ∧
      (∀ r ∈ [[(3 : Int), 5, 3, 7]], r.length = 4) ∧
      (∀ g ∈ [[(3 : Int)]], g ≠ []) ∧ 0 < 1) ∧
    (create_n_gram_speculation [[3, 5, 3, 7]] (([[(3 : Int)]] : List (List Int)).flatten)
        (([[(3 : Int)]] : List (List Int)).map List.length) 2).getD 0 [] =
      nGramFirstProposal [3, 5, 3, 7] 3 2 ∧
    nGramFirstProposal [3, 5, 3, 7] 3 2 = [5, 3] :=
  ⟨⟨by decide, by decide, by decide, by decide⟩,
    by
      have h := n_gram_first_match [[(3 : Int)]] [[3, 5, 3, 7]] 2 4
        (by decide) (by decide) (by decide) 0 (by decide)
      simpa using h,
    by decide⟩

/-- Order used to model torch.topk(sorted=True) on a row: pairs of (value,
original index), larger values first, exact value ties by ascending
original index. -/
def topkLe (a b : ℚ × Nat) : Prop :=
  b.1 < a.1 ∨ (a.1 = b.1 ∧ a.2 ≤ b.2)

instance : DecidableRel topkLe := fun a b => by
  unfold topkLe
  infer_instance

instance : IsTotal (ℚ × Nat) topkLe := ⟨by
  intro a b
  unfold topkLe
  rcases lt_trichotomy a.1 b.1 with h | h | h
  · right; left; exact h
  · rcases Nat.le_total a.2 b.2 with h2 | h2
    · left; right; exact ⟨h, h2⟩
    · right; right; exact ⟨h.symm, h2⟩
  · left; left; exact h⟩

instance : IsTrans (ℚ × Nat) topkLe := ⟨by
  intro a b c hab hbc
  unfold topkLe at *
  rcases hab with h1 | ⟨h1, h1b⟩ <;> rcases hbc with h2 | ⟨h2, h2b⟩
  · left; exact lt_trans h2 h1
  · left; rw [← h2]; exact h1
  · left; rw [h1]; exact h2
  · right; exact ⟨h1.trans h2, h1b.trans h2b⟩⟩

instance : IsAntisymm ℚ (fun a b : ℚ => b ≤ a) :=
  ⟨fun _ _ h1 h2 => le_antisymm h2 h1⟩

/-- The (value, original index) pairs of a row, in index order. -/
def pairsOf (row : List ℚ) : List (ℚ × Nat) :=
  row.enum.map (fun p => (p.2, p.1))

/-- Semantics of torch.topk(row, k, sorted=True): the first k pairs of the
row sorted descending by value. -/
def torchTopk (row : List ℚ) (k : Nat) : List (ℚ × Nat) :=
  (List.insertionSort topkLe (pairsOf row)).take k

/-- Semantics of torch.unique_consecutive(return_counts=True): the runs of
equal consecutive values with their lengths. -/
def uniqueConsecutiveCounts : List Nat → List (Nat × Nat)
  | [] => []
  | x :: xs =>
    match uniqueConsecutiveCounts xs with
    | [] => [(x, 1)]
    | (y, c) :: rest => if x = y then (x, c + 1) :: rest else (x, 1) :: (y, c) :: rest

/-- A three-list pointwise zip, the semantics of the python zip of three
lists (stops at the shortest). -/
def zipWith3 {α β γ δ : Type} (f : α → β → γ → δ) : List α → List β → List γ → List δ
  | a :: as, b :: bs, c :: cs => f a b c :: zipWith3 f as bs cs
  | _, _, _ => []

/-- batch_top_tokens of the source, over finite (rational-valued) log
probabilities.  Failures of the python code are modelled as none: max() of
an empty list raises, and torch.topk raises when k exceeds the vocabulary
dimension.  The replacement of -inf thresholds by the dtype minimum is a
no-op here because every modelled value is finite.  The counts come from
nonzero() of the row-wise threshold comparison (flattened row-major, first
coordinates only) grouped by unique_consecutive, exactly as in the
source. -/
def batch_top_tokens (top_n_tokens : List Nat) (logprobs : List (List ℚ)) :
    Option (List (List Nat) × List (List ℚ)) :=
  match top_n_tokens.max? with
  | none => none
  | some max_top_n =>
    if max_top_n = 0 then
      some (List.replicate top_n_tokens.length [], List.replicate top_n_tokens.length [])
    else
      let V := (logprobs.headD []).length
      if V < max_top_n then none
      else
        let clamped := top_n_tokens.map (fun t => min t V)
        let sortedTopK := logprobs.map (fun row => (torchTopk row max_top_n).map Prod.fst)
        let nthHighest := List.zipWith (fun vals n => vals.getD (n - 1) 0)
          sortedTopK top_n_tokens
        let firsts := (logprobs.enum.map (fun p =>
          (p.2.filter (fun v => decide (nthHighest.getD p.1 0 ≤ v))).map
            (fun _ => p.1))).flatten
        let counts := (uniqueConsecutiveCounts firsts).map Prod.snd
        let k := match counts.max? with | none => 1 | some m => m
        if V < k then none
        else
          let topIdx := logprobs.map (fun row => (torchTopk row k).map Prod.snd)
          let topVal := logprobs.map (fun row => (torchTopk row k).map Prod.fst)
          some
            (zipWith3 (fun idxs n req => if 0 < req then idxs.take n else [])
              topIdx counts clamped,
            zipWith3 (fun vals n req => if 0 < req then vals.take n else [])
              topVal counts clamped)

/-- C10: called with an empty top_n_tokens list, batch_top_tokens fails
(max of an empty sequence raises) rather than returning empty results;
with a non-empty list whose maximum is 0 it returns empty lists for every
sequence, for every log-probability input, without touching the log
probabilities. -/
theorem batch_top_tokens_empty_fails_zero_shortcuts
    (top_n_tokens : List Nat) (logprobs logprobs2 : List (List ℚ)) :
    (batch_top_tokens [] logprobs = none) ∧
    (top_n_tokens.max? = some 0 →
      batch_top_tokens top_n_tokens logprobs =
        some (List.replicate top_n_tokens.length [],
          List.replicate top_n_tokens.length []) ∧
      batch_top_tokens top_n_tokens logprobs = batch_top_tokens top_n_tokens logprobs2) := by
  constructor
  · rfl
  · intro h
    constructor
    · unfold batch_top_tokens
      rw [h]
      rfl
    · unfold batch_top_tokens
      rw [h]
      rfl

/-- C10 witness: the empty batch fails; a two-row batch requesting zero
top tokens everywhere returns empty lists whatever the log probabilities
are. -/
theorem batch_top_tokens_empty_fails_zero_shortcuts_witness :
    ([0, 0].max? = some 0) ∧
    batch_top_tokens [] [[1]] = none ∧
    batch_top_tokens [0, 0] [[1], [2]] = some ([[], []], [[], []]) ∧
    batch_top_tokens [0, 0] [[1], [2]] = batch_top_tokens [0, 0] [[3], [4]] :=
  ⟨by decide,
    (batch_top_tokens_empty_fails_zero_shortcuts [0, 0] [[1]] [[3], [4]]).1,
    by
      have h := (batch_top_tokens_empty_fails_zero_shortcuts [0, 0] [[1], [2]]
        [[3], [4]]).2 (by decide)
      rw [h.1]
      decide,
    ((batch_top_tokens_empty_fails_zero_shortcuts [0, 0] [[1], [2]] [[3], [4]]).2
      (by decide)).2⟩

instance : IsTotal ℚ (fun a b : ℚ => b ≤ a) := ⟨fun a b => le_total b a⟩

instance : IsTrans ℚ (fun a b : ℚ => b ≤ a) := ⟨fun _ _ _ h1 h2 => le_trans h2 h1⟩

/-- The full descending sort of a row of values. -/
def sortedDesc (row : List ℚ) : List ℚ :=
  List.insertionSort (fun a b => b ≤ a) row

/-- The value at rank n of a row, 1-indexed, with the index clipped at
zero exactly as by (n - 1).clip(min=0) on natural subtraction. -/
def rankValue (row : List ℚ) (n : Nat) : ℚ :=
  (sortedDesc row).getD (n - 1) 0

/-- The sorted pairs of a row, the list torch.topk truncates. -/
def sortedPairs (row : List ℚ) : List (ℚ × Nat) :=
  List.insertionSort topkLe (pairsOf row)

/-- The membership and bound facts of a max? result on naturals. -/
theorem max?_facts (tn : List Nat) (m : Nat) (h : tn.max? = some m) :
    m ∈ tn ∧ ∀ x ∈ tn, x ≤ m := by
  rw [List.max?_eq_some_iff] at h
  · exact ⟨h.1, h.2⟩
  · exact fun a => le_refl a
  · intro a b; omega
  · intro a b c; omega

/-- The values of the pairs of a row are the row itself. -/
theorem pairsOf_map_fst (row : List ℚ) : (pairsOf row).map Prod.fst = row := by
  unfold pairsOf
  rw [List.map_map]
  exact List.enum_map_snd row

/-- Membership in the pairs of a row: exactly the (value, position)
pairs of the row. -/
theorem mem_pairsOf {row : List ℚ} {q : ℚ × Nat} :
    q ∈ pairsOf row ↔ q.2 < row.length ∧ row.getD q.2 0 = q.1 := by
  unfold pairsOf
  rw [List.mem_map]
  constructor
  · rintro ⟨p, hp, rfl⟩
    rw [List.mem_enum_iff_getElem?] at hp
    obtain ⟨hlt, heq⟩ := List.getElem?_eq_some.mp hp
    refine ⟨hlt, ?_⟩
    rw [List.getD_eq_getElem _ _ hlt, heq]
  · rintro ⟨hlt, heq⟩
    refine ⟨(q.2, q.1), ?_, rfl⟩
    rw [List.mem_enum_iff_getElem?]
    rw [List.getElem?_eq_getElem hlt]
    rw [List.getD_eq_getElem _ _ hlt] at heq
    rw [heq]

/-- The sorted pairs are sorted descending in the value component. -/
theorem sortedPairs_sorted_fst (row : List ℚ) :
    List.Sorted (fun a b : ℚ × Nat => b.1 ≤ a.1) (sortedPairs row) := by
  have h : List.Sorted topkLe (sortedPairs row) := List.sorted_insertionSort topkLe _
  refine h.imp ?_
  intro a b hab
  rcases hab with h1 | ⟨h1, _⟩
  · exact le_of_lt h1
  · exact le_of_eq h1.symm

/-- The value list of the sorted pairs is the descending sort of the
row. -/
theorem sortedPairs_map_fst (row : List ℚ) :
    (sortedPairs row).map Prod.fst = sortedDesc row := by
  have hperm : List.Perm ((sortedPairs row).map Prod.fst) (sortedDesc row) := by
    have h1 : List.Perm ((sortedPairs row).map Prod.fst) row := by
      have h2 := (List.perm_insertionSort topkLe (pairsOf row)).map Prod.fst
      rwa [pairsOf_map_fst] at h2
    exact h1.trans (List.perm_insertionSort _ row).symm
  have hs1 : List.Sorted (fun a b : ℚ => b ≤ a) ((sortedPairs row).map Prod.fst) := by
    have h := sortedPairs_sorted_fst row
    exact List.Pairwise.map Prod.fst (fun a b hab => hab) h
  have hs2 : List.Sorted (fun a b : ℚ => b ≤ a) (sortedDesc row) :=
    List.sorted_insertionSort _ _
  exact List.eq_of_perm_of_sorted hperm hs1 hs2

/-- An element of a map below the length evaluates the function at the
element. -/
theorem getD_map_list {α β : Type} (g : α → β) (l : List α) (d : α) (d2 : β) (i : Nat)
    (h : i < l.length) : (l.map g).getD i d2 = g (l.getD i d) := by
  rw [List.getD_eq_getElem _ _ (by rw [List.length_map]; omega), List.getElem_map,
    List.getD_eq_getElem _ _ h]

/-- An element of a zipWith below both lengths evaluates the function at
both elements. -/
theorem getD_zipWith {α β γ : Type} (f : α → β → γ) (a : List α) (b : List β)
    (da : α) (db : β) (dc : γ) (i : Nat) (ha : i < a.length) (hb : i < b.length) :
    (List.zipWith f a b).getD i dc = f (a.getD i da) (b.getD i db) := by
  rw [List.getD_eq_getElem _ _ (by rw [List.length_zipWith]; omega), List.getElem_zipWith,
    List.getD_eq_getElem a da ha, List.getD_eq_getElem b db hb]

/-- Length of the three-list zip. -/
theorem zipWith3_length {α β γ δ : Type} (f : α → β → γ → δ) :
    ∀ (a : List α) (b : List β) (c : List γ),
      (zipWith3 f a b c).length = min (min a.length b.length) c.length
  | [], b, c => by simp [zipWith3]
  | a :: as, [], c => by simp [zipWith3]
  | a :: as, b :: bs, [] => by simp [zipWith3]
  | a :: as, b :: bs, c :: cs => by
    simp only [zipWith3, List.length_cons, zipWith3_length f as bs cs]
    omega

/-- An element of the three-list zip below all lengths evaluates the
function at the three elements. -/
theorem getD_zipWith3 {α β γ δ : Type} (f : α → β → γ → δ) :
    ∀ (a : List α) (b : List β) (c : List γ) (da : α) (db : β) (dc : γ) (dd : δ) (i : Nat),
      i < a.length → i < b.length → i < c.length →
      (zipWith3 f a b c).getD i dd = f (a.getD i da) (b.getD i db) (c.getD i dc)
  | [], _, _, _, _, _, _, i, ha, _, _ => by simp at ha
  | _ :: _, [], _, _, _, _, _, i, _, hb, _ => by simp at hb
  | _ :: _, _ :: _, [], _, _, _, _, i, _, _, hc => by simp at hc
  | a :: as, b :: bs, c :: cs, da, db, dc, dd, 0, _, _, _ => rfl
  | a :: as, b :: bs, c :: cs, da, db, dc, dd, i + 1, ha, hb, hc => by
    simp only [zipWith3, List.getD_cons_succ]
    exact getD_zipWith3 f as bs cs da db dc dd i (by simpa using ha) (by simpa using hb)
      (by simpa using hc)

/-- An element of the take below the cut is the element of the list. -/
theorem getD_take {α : Type} (l : List α) (d : α) (n m : Nat) (hm : m < n)
    (hl : m < l.length) : (l.take n).getD m d = l.getD m d := by
  rw [List.getD_eq_getElem _ _ (by rw [List.length_take]; omega),
    List.getD_eq_getElem _ _ hl]
  exact List.getElem_take _

/-- The descending sort keeps the length. -/
theorem sortedDesc_length (row : List ℚ) : (sortedDesc row).length = row.length :=
  (List.perm_insertionSort _ row).length_eq

/-- The rank value read through the truncated value list of torch.topk. -/
theorem topk_map_fst_getD (row : List ℚ) (K n : Nat) (hn : n - 1 < K)
    (hlen : n - 1 < row.length) :
    ((torchTopk row K).map Prod.fst).getD (n - 1) 0 = rankValue row n := by
  unfold torchTopk rankValue
  rw [show List.insertionSort topkLe (pairsOf row) = sortedPairs row from rfl]
  rw [List.map_take, sortedPairs_map_fst]
  exact getD_take _ _ _ _ hn (by rw [sortedDesc_length]; omega)

/-- The rank value is attained in the row. -/
theorem rankValue_mem (row : List ℚ) (n : Nat) (h : n - 1 < row.length) :
    rankValue row n ∈ row := by
  unfold rankValue
  have hlen : (sortedDesc row).length = row.length := sortedDesc_length row
  rw [List.getD_eq_getElem _ _ (by omega)]
  exact (List.perm_insertionSort _ row).mem_iff.mp (List.getElem_mem _)

/-- In a list sorted descending in the value component, the first countP
elements are exactly the elements at or above the threshold. -/
theorem take_countP_of_sorted : ∀ (l : List (ℚ × Nat)) (t : ℚ),
    List.Sorted (fun a b : ℚ × Nat => b.1 ≤ a.1) l →
    l.take (l.countP (fun x => decide (t ≤ x.1))) = l.filter (fun x => decide (t ≤ x.1))
  | [], _, _ => rfl
  | a :: l, t, h => by
    have hsort := h.of_cons
    have hhead := List.rel_of_sorted_cons h
    by_cases hta : t ≤ a.1
    · rw [List.countP_cons, List.filter_cons]
      rw [show decide (t ≤ a.1) = true from decide_eq_true hta]
      rw [if_pos rfl, List.take_succ_cons, take_countP_of_sorted l t hsort, if_pos rfl]
    · have hall : ∀ b ∈ a :: l, ¬ ((fun x => decide (t ≤ x.1)) b = true) := by
        intro b hb
        rcases List.mem_cons.mp hb with rfl | hb2
        · simpa using hta
        · have hba := hhead b hb2
          simp only [decide_eq_true_eq]
          intro hc
          exact hta (le_trans hc hba)
      rw [List.countP_eq_zero.mpr hall, List.take_zero, eq_comm]
      rw [List.filter_eq_nil_iff]
      exact hall

/-- An element of a take comes from a position below the cut. -/
theorem mem_take_exists {α : Type} : ∀ (l : List α) (n : Nat) (x : α), x ∈ l.take n →
    ∃ j, j < n ∧ ∃ hj : j < l.length, l[j] = x
  | a :: l, n + 1, x, hx => by
    rcases List.mem_cons.mp hx with rfl | hx2
    · exact ⟨0, by omega, by simp⟩
    · obtain ⟨j, hj1, hj2, hj3⟩ := mem_take_exists l n x hx2
      exact ⟨j + 1, by omega, by simpa using hj2, by simpa using hj3⟩
  | a :: l, 0, x, hx => by simp at hx
  | [], n, x, hx => by simp at hx

/-- The count of row entries at or above the rank value is at least the
rank. -/
theorem rank_le_countP (row : List ℚ) (n : Nat) (hn1 : 1 ≤ n) (hn : n ≤ row.length) :
    n ≤ row.countP (fun v => decide (rankValue row n ≤ v)) := by
  have hperm : List.Perm (sortedDesc row) row := List.perm_insertionSort _ row
  rw [← hperm.countP_eq]
  have hslen : (sortedDesc row).length = row.length := sortedDesc_length row
  have hsorted : List.Sorted (fun a b : ℚ => b ≤ a) (sortedDesc row) :=
    List.sorted_insertionSort _ _
  have htake : ∀ x ∈ (sortedDesc row).take n, rankValue row n ≤ x := by
    intro x hx
    obtain ⟨j, hjn, hjl, rfl⟩ := mem_take_exists _ _ _ hx
    unfold rankValue
    rw [List.getD_eq_getElem _ _ (by omega)]
    rcases Nat.lt_or_ge j (n - 1) with hj | hj
    · exact List.pairwise_iff_getElem.mp hsorted j (n - 1) hjl (by omega) hj
    · have hjeq : j = n - 1 := by omega
      subst hjeq
      exact le_refl _
  have hcount : ((sortedDesc row).take n).countP (fun v => decide (rankValue row n ≤ v))
      = n := by
    rw [List.countP_eq_length.mpr (by intro x hx; simpa using htake x hx)]
    rw [List.length_take]
    omega
  calc n = ((sortedDesc row).take n).countP (fun v => decide (rankValue row n ≤ v)) :=
        hcount.symm
    _ ≤ (sortedDesc row).countP (fun v => decide (rankValue row n ≤ v)) := by
        conv_rhs => rw [← List.take_append_drop n (sortedDesc row)]
        rw [List.countP_append]
        omega

/-- The countP of a threshold over the pairs of a row equals the countP
over the row. -/
theorem countP_pairsOf (row : List ℚ) (t : ℚ) :
    (pairsOf row).countP (fun x => decide (t ≤ x.1)) =
      row.countP (fun v => decide (t ≤ v)) := by
  unfold pairsOf
  rw [List.countP_map]
  conv_rhs => rw [← List.enum_map_snd row, List.countP_map]
  rfl

/-- The first countP entries of the torch.topk index list are the indices
of the sorted pairs at or above the threshold. -/
theorem topk_take_filter (row : List ℚ) (t : ℚ) (K : Nat)
    (hK : row.countP (fun v => decide (t ≤ v)) ≤ K) :
    ((torchTopk row K).map Prod.snd).take (row.countP (fun v => decide (t ≤ v))) =
      ((sortedPairs row).filter (fun x => decide (t ≤ x.1))).map Prod.snd := by
  have hc : row.countP (fun v => decide (t ≤ v)) =
      (sortedPairs row).countP (fun x => decide (t ≤ x.1)) := by
    rw [← countP_pairsOf]
    exact ((List.perm_insertionSort topkLe (pairsOf row)).countP_eq _).symm
  unfold torchTopk
  rw [show List.insertionSort topkLe (pairsOf row) = sortedPairs row from rfl]
  rw [List.map_take, List.take_take, min_eq_left hK, hc, ← List.map_take,
    take_countP_of_sorted _ _ (sortedPairs_sorted_fst row)]

/-- Membership in the truncated topk index list: exactly the positions
whose value reaches the threshold. -/
theorem topk_take_mem_iff (row : List ℚ) (t : ℚ) (K : Nat)
    (hK : row.countP (fun v => decide (t ≤ v)) ≤ K) (v : Nat) :
    v ∈ ((torchTopk row K).map Prod.snd).take (row.countP (fun v => decide (t ≤ v))) ↔
      (v < row.length ∧ t ≤ row.getD v 0) := by
  rw [topk_take_filter row t K hK, List.mem_map]
  constructor
  · rintro ⟨q, hq, rfl⟩
    rw [List.mem_filter] at hq
    obtain ⟨hq1, hq2⟩ := hq
    have hq3 : q ∈ pairsOf row :=
      (List.perm_insertionSort topkLe (pairsOf row)).mem_iff.mp hq1
    rw [mem_pairsOf] at hq3
    rw [decide_eq_true_eq] at hq2
    exact ⟨hq3.1, hq3.2 ▸ hq2⟩
  · rintro ⟨hlt, hle⟩
    refine ⟨(row.getD v 0, v), ?_, rfl⟩
    rw [List.mem_filter]
    constructor
    · rw [show sortedPairs row = List.insertionSort topkLe (pairsOf row) from rfl]
      rw [(List.perm_insertionSort topkLe (pairsOf row)).mem_iff]
      rw [mem_pairsOf]
      exact ⟨hlt, rfl⟩
    · simpa using hle

/-- The truncated topk index list has exactly countP entries (when the
cut is at least the count). -/
theorem topk_take_length (row : List ℚ) (t : ℚ) (K : Nat)
    (hK : row.countP (fun v => decide (t ≤ v)) ≤ K) :
    (((torchTopk row K).map Prod.snd).take (row.countP (fun v => decide (t ≤ v)))).length =
      row.countP (fun v => decide (t ≤ v)) := by
  rw [topk_take_filter row t K hK, List.length_map, ← List.countP_eq_length_filter]
  rw [show sortedPairs row = List.insertionSort topkLe (pairsOf row) from rfl]
  rw [(List.perm_insertionSort topkLe (pairsOf row)).countP_eq, countP_pairsOf]

/-- Single unfolding step of the consecutive grouping. -/
theorem ucc_cons (x : Nat) (xs : List Nat) :
    uniqueConsecutiveCounts (x :: xs) =
      match uniqueConsecutiveCounts xs with
      | [] => [(x, 1)]
      | (y, c) :: rest => if x = y then (x, c + 1) :: rest else (x, 1) :: (y, c) :: rest :=
  rfl

/-- The consecutive grouping of a nonempty list starts with its head
value. -/
theorem ucc_head (x : Nat) (xs : List Nat) :
    ∃ c rest, uniqueConsecutiveCounts (x :: xs) = (x, c) :: rest := by
  rw [ucc_cons]
  cases h : uniqueConsecutiveCounts xs with
  | nil => exact ⟨1, [], rfl⟩
  | cons hd tl =>
    obtain ⟨y, c⟩ := hd
    dsimp only
    by_cases hxy : x = y
    · rw [if_pos hxy]
      exact ⟨c + 1, tl, rfl⟩
    · rw [if_neg hxy]
      exact ⟨1, (y, c) :: tl, rfl⟩

/-- Grouping a run of c equal keys prepended to a list whose head key
differs yields the run entry followed by the grouping of the rest. -/
theorem ucc_replicate_append : ∀ (c i : Nat) (t : List Nat), 1 ≤ c →
    (∀ h, t.head? = some h → h ≠ i) →
    uniqueConsecutiveCounts (List.replicate c i ++ t) =
      (i, c) :: uniqueConsecutiveCounts t
  | 0, _, _, hc, _ => by omega
  | 1, i, t, _, hh => by
    rw [List.replicate_one, List.singleton_append]
    cases t with
    | nil => rfl
    | cons h2 t2 =>
      obtain ⟨c2, rest2, hc2⟩ := ucc_head h2 t2
      have hne : i ≠ h2 := fun he => (hh h2 rfl) he.symm
      rw [ucc_cons, hc2]
      dsimp only
      rw [if_neg hne]
  | c + 2, i, t, _, hh => by
    have hstep : List.replicate (c + 2) i ++ t = i :: (List.replicate (c + 1) i ++ t) := by
      rw [List.replicate_succ, List.cons_append]
    rw [hstep]
    have hrec := ucc_replicate_append (c + 1) i t (by omega) hh
    rw [ucc_cons, hrec]
    dsimp only
    rw [if_pos rfl]

/-- A map to a constant is a replicate. -/
theorem map_const_replicate {α β : Type} (l : List α) (b : β) :
    l.map (fun _ => b) = List.replicate l.length b := by
  induction l with
  | nil => rfl
  | cons a l ih => simp [List.replicate_succ, ih]

/-- Every first coordinate collected from the enumerated blocks is at
least the enumeration start. -/
theorem flatten_blocks_ge (pred : Nat → ℚ → Bool) :
    ∀ (rows : List (List ℚ)) (j x : Nat),
    x ∈ ((List.enumFrom j rows).map
      (fun p => (p.2.filter (pred p.1)).map (fun _ => p.1))).flatten →
    j ≤ x
  | [], j, x, hx => by simp at hx
  | r :: rest, j, x, hx => by
    rw [List.enumFrom_cons] at hx
    simp only [List.map_cons, List.flatten_cons, List.mem_append] at hx
    rcases hx with hx | hx
    · rw [List.mem_map] at hx
      obtain ⟨_, _, rfl⟩ := hx
      exact le_refl j
    · have hge := flatten_blocks_ge pred rest (j + 1) x hx
      omega

/-- The consecutive grouping of the flattened enumerated blocks, when
every block is nonempty, is the per-row list of keys and counts. -/
theorem ucc_enumFrom_blocks (pred : Nat → ℚ → Bool) :
    ∀ (rows : List (List ℚ)) (j : Nat),
    (∀ p ∈ List.enumFrom j rows, 1 ≤ (p.2.filter (pred p.1)).length) →
    uniqueConsecutiveCounts
      (((List.enumFrom j rows).map
        (fun p => (p.2.filter (pred p.1)).map (fun _ => p.1))).flatten) =
    (List.enumFrom j rows).map (fun p => (p.1, (p.2.filter (pred p.1)).length))
  | [], _, _ => rfl
  | r :: rest, j, hpos => by
    rw [List.enumFrom_cons]
    simp only [List.map_cons, List.flatten_cons]
    rw [map_const_replicate]
    rw [ucc_replicate_append _ _ _
      (hpos (j, r) (by rw [List.enumFrom_cons]; exact List.mem_cons_self _ _))
      (by
        intro h hh
        have hmem : h ∈ ((List.enumFrom (j + 1) rest).map
            (fun p => (p.2.filter (pred p.1)).map (fun _ => p.1))).flatten :=
          List.mem_of_mem_head? (by rw [hh]; rfl)
        have hge := flatten_blocks_ge pred rest (j + 1) h hmem
        omega)]
    rw [ucc_enumFrom_blocks pred rest (j + 1)
      (fun p hp => hpos p (by rw [List.enumFrom_cons]; exact List.mem_cons_of_mem _ hp))]

/-- An element of a map over the enumeration evaluates the function at
the position and the row. -/
theorem getD_map_enum {β : Type} (g : Nat × List ℚ → β) (logprobs : List (List ℚ))
    (d : β) (i : Nat) (h : i < logprobs.length) :
    (logprobs.enum.map g).getD i d = g (i, logprobs.getD i []) := by
  rw [List.getD_eq_getElem _ _ (by simp only [List.length_map, List.enum_length]; omega),
    List.getElem_map]
  congr 1
  rw [List.getElem_enum]
  congr 1
  rw [List.getD_eq_getElem _ _ h]

/-- The vocabulary size the code reads from the first row. -/
def bttV (logprobs : List (List ℚ)) : Nat :=
  (logprobs.headD []).length

/-- The per-row threshold vector nth_highest of batch_top_tokens, with M
the batch maximum of the requested counts. -/
def bttNth (M : Nat) (tn : List Nat) (lp : List (List ℚ)) : List ℚ :=
  List.zipWith (fun vals n => vals.getD (n - 1) 0)
    (lp.map (fun row => (torchTopk row M).map Prod.fst)) tn

/-- The row-major first coordinates of the nonzero positions of the
threshold comparison. -/
def bttFirsts (M : Nat) (tn : List Nat) (lp : List (List ℚ)) : List Nat :=
  (lp.enum.map (fun p =>
    (p.2.filter (fun v => decide ((bttNth M tn lp).getD p.1 0 ≤ v))).map
      (fun _ => p.1))).flatten

/-- The per-row fuzzy counts top_n_ishes. -/
def bttCounts (M : Nat) (tn : List Nat) (lp : List (List ℚ)) : List Nat :=
  (uniqueConsecutiveCounts (bttFirsts M tn lp)).map Prod.snd

/-- The second topk cut k of batch_top_tokens. -/
def bttK (M : Nat) (tn : List Nat) (lp : List (List ℚ)) : Nat :=
  match (bttCounts M tn lp).max? with
  | none => 1
  | some m => m

/-- Shape of the result of batch_top_tokens on the main path: both guards
pass and the result is the per-row truncation of the second topk by the
fuzzy counts, for rows with a positive clamped request. -/
theorem batch_top_tokens_eq (tn : List Nat) (lp : List (List ℚ)) (M : Nat)
    (hmax : tn.max? = some M) (hM0 : ¬ M = 0)
    (hVM : ¬ ((lp.headD []).length < M))
    (hKV : ¬ (bttV lp < bttK M tn lp)) :
    batch_top_tokens tn lp = some
      (zipWith3 (fun idxs n req => if 0 < req then idxs.take n else [])
        (lp.map (fun row => (torchTopk row (bttK M tn lp)).map Prod.snd))
        (bttCounts M tn lp) (tn.map (fun t => min t (bttV lp))),
      zipWith3 (fun vals n req => if 0 < req then vals.take n else [])
        (lp.map (fun row => (torchTopk row (bttK M tn lp)).map Prod.fst))
        (bttCounts M tn lp) (tn.map (fun t => min t (bttV lp)))) := by
  unfold batch_top_tokens
  rw [hmax]
  dsimp only
  rw [if_neg hM0, if_neg hVM]
  split
  · rename_i hlt
    exact absurd hlt hKV
  · rfl

/-- The threshold of row i is the rank value of that row at its requested
count. -/
theorem bttNth_getD (M : Nat) (tn : List Nat) (lp : List (List ℚ)) (V i : Nat)
    (hi : i < tn.length) (hlen : lp.length = tn.length)
    (hV : ∀ row ∈ lp, row.length = V) (hG : tn.getD i 0 ≤ M) (hM1 : 1 ≤ M)
    (hMV : M ≤ V) (hVpos : 0 < V) :
    (bttNth M tn lp).getD i 0 = rankValue (lp.getD i []) (tn.getD i 0) := by
  unfold bttNth
  rw [getD_zipWith _ _ _ [] 0 0 i (by rw [List.length_map]; omega) hi]
  rw [getD_map_list _ _ [] _ i (by omega)]
  have hrow : (lp.getD i []).length = V := hV _ (by
    rw [List.getD_eq_getElem _ _ (by omega)]
    exact List.getElem_mem _)
  exact topk_map_fst_getD _ _ _ (by omega) (by omega)

/-- The fuzzy counts are the per-row counts of positions at or above the
row threshold, provided every row has at least one such position. -/
theorem bttCounts_eq (M : Nat) (tn : List Nat) (lp : List (List ℚ))
    (hpos : ∀ p ∈ lp.enum,
      1 ≤ (p.2.filter (fun v => decide ((bttNth M tn lp).getD p.1 0 ≤ v))).length) :
    bttCounts M tn lp =
      lp.enum.map (fun p =>
        (p.2.filter (fun v => decide ((bttNth M tn lp).getD p.1 0 ≤ v))).length) := by
  unfold bttCounts bttFirsts
  have hblocks := ucc_enumFrom_blocks
    (fun i v => decide ((bttNth M tn lp).getD i 0 ≤ v)) lp 0
    (by intro p hp; exact hpos p hp)
  rw [show lp.enum = List.enumFrom 0 lp from rfl]
  rw [hblocks, List.map_map]
  rfl

/-- C7: on a well-shaped batch (at least one sequence, rectangular rows of
width V, every requested count at most V, positive V), batch_top_tokens
succeeds, a token v of sequence i is in the returned top list exactly when
the requested count is positive and the log probability of v reaches the
value at rank top_n_tokens[i] of row i (so every boundary tie is
returned), rows with requested count zero yield empty lists, and the
returned list has at least the clamped requested count of entries. -/
theorem batch_top_tokens_membership (top_n_tokens : List Nat) (logprobs : List (List ℚ))
    (V : Nat) (hB : 0 < top_n_tokens.length) (hBeq : logprobs.length = top_n_tokens.length)
    (hV : ∀ row ∈ logprobs, row.length = V) (hreq : ∀ t ∈ top_n_tokens, t ≤ V)
    (hVpos : 0 < V) :
    ∃ out, batch_top_tokens top_n_tokens logprobs = some out ∧
      ∀ i, i < top_n_tokens.length →
        (top_n_tokens.getD i 0 = 0 → out.1.getD i [] = []) ∧
        (∀ v, v ∈ out.1.getD i [] ↔
          (0 < top_n_tokens.getD i 0 ∧ v < V ∧
            rankValue (logprobs.getD i []) (top_n_tokens.getD i 0) ≤
              (logprobs.getD i []).getD v 0)) ∧
        (min (top_n_tokens.getD i 0) V ≤ (out.1.getD i []).length) := by
  cases hmax : top_n_tokens.max? with
  | none =>
    rw [List.max?_eq_none_iff] at hmax
    rw [hmax] at hB
    simp at hB
  | some M =>
  obtain ⟨hMmem, hMub⟩ := max?_facts _ _ hmax
  have hrowmem : ∀ i, i < top_n_tokens.length → (logprobs.getD i []).length = V := by
    intro i hi
    refine hV _ ?_
    rw [List.getD_eq_getElem _ _ (by omega)]
    exact List.getElem_mem _
  have htnmem : ∀ i, i < top_n_tokens.length → top_n_tokens.getD i 0 ∈ top_n_tokens := by
    intro i hi
    rw [List.getD_eq_getElem _ _ hi]
    exact List.getElem_mem _
  by_cases hM0 : M = 0
  · subst hM0
    refine ⟨(List.replicate top_n_tokens.length [], List.replicate top_n_tokens.length []),
      ?_, ?_⟩
    · unfold batch_top_tokens
      rw [hmax]
      rfl
    · intro i hi
      have htn0 : top_n_tokens.getD i 0 = 0 :=
        Nat.le_zero.mp (hMub _ (htnmem i hi))
      have hout : (List.replicate top_n_tokens.length ([] : List Nat),
          List.replicate top_n_tokens.length ([] : List ℚ)).1.getD i [] = [] := by
        exact getD_replicate _ _ _ _ hi
      refine ⟨fun _ => hout, ?_, ?_⟩
      · intro v
        rw [hout, htn0]
        simp
      · rw [hout, htn0]
        simp
  · have hM1 : 1 ≤ M := by omega
    have hheadV : (logprobs.headD []).length = V := by
      cases hlp : logprobs with
      | nil => rw [hlp] at hBeq; simp at hBeq; omega
      | cons r rest =>
        simp only [List.headD_cons]
        exact hV r (by rw [hlp]; exact List.mem_cons_self r rest)
    have hMV : M ≤ V := hreq M hMmem
    have hbttV : bttV logprobs = V := hheadV
    have hnth : ∀ i, i < top_n_tokens.length →
        (bttNth M top_n_tokens logprobs).getD i 0 =
          rankValue (logprobs.getD i []) (top_n_tokens.getD i 0) := by
      intro i hi
      exact bttNth_getD M top_n_tokens logprobs V i hi hBeq hV (hMub _ (htnmem i hi))
        hM1 hMV hVpos
    have hposcount : ∀ i, i < top_n_tokens.length →
        1 ≤ (logprobs.getD i []).countP
          (fun v => decide ((bttNth M top_n_tokens logprobs).getD i 0 ≤ v)) := by
      intro i hi
      have h01 : 0 < (logprobs.getD i []).countP
          (fun v => decide ((bttNth M top_n_tokens logprobs).getD i 0 ≤ v)) := by
        rw [List.countP_pos_iff]
        refine ⟨rankValue (logprobs.getD i []) (top_n_tokens.getD i 0), ?_, ?_⟩
        · refine rankValue_mem _ _ ?_
          rw [hrowmem i hi]
          have hub := hMub _ (htnmem i hi)
          omega
        · rw [hnth i hi]
          simp
      omega
    have hpos : ∀ p ∈ logprobs.enum,
        1 ≤ (p.2.filter
          (fun v => decide ((bttNth M top_n_tokens logprobs).getD p.1 0 ≤ v))).length := by
      intro p hp
      rw [List.mem_enum_iff_getElem?] at hp
      obtain ⟨hp1, hp2⟩ := List.getElem?_eq_some.mp hp
      have hpd : logprobs.getD p.1 [] = p.2 := by
        rw [List.getD_eq_getElem _ _ hp1, hp2]
      rw [← List.countP_eq_length_filter, ← hpd]
      exact hposcount p.1 (by omega)
    have hcounts := bttCounts_eq M top_n_tokens logprobs hpos
    have hcountslen : (bttCounts M top_n_tokens logprobs).length = top_n_tokens.length := by
      rw [hcounts]
      simp only [List.length_map, List.enum_length]
      omega
    have hcountsget : ∀ i, i < top_n_tokens.length →
        (bttCounts M top_n_tokens logprobs).getD i 0 =
          (logprobs.getD i []).countP
            (fun v => decide ((bttNth M top_n_tokens logprobs).getD i 0 ≤ v)) := by
      intro i hi
      rw [hcounts, getD_map_enum _ _ _ _ (by omega)]
      rw [← List.countP_eq_length_filter]
    cases hKmax : (bttCounts M top_n_tokens logprobs).max? with
    | none =>
      rw [List.max?_eq_none_iff] at hKmax
      rw [hKmax] at hcountslen
      simp at hcountslen
      omega
    | some K =>
    obtain ⟨hKmem, hKub⟩ := max?_facts _ _ hKmax
    have hbttK : bttK M top_n_tokens logprobs = K := by
      unfold bttK
      rw [hKmax]
    have hKV : K ≤ V := by
      rw [hcounts] at hKmem
      rw [List.mem_map] at hKmem
      obtain ⟨p, hp, hpk⟩ := hKmem
      rw [List.mem_enum_iff_getElem?] at hp
      obtain ⟨hp1, hp2⟩ := List.getElem?_eq_some.mp hp
      have hple : (p.2.filter
          (fun v => decide ((bttNth M top_n_tokens logprobs).getD p.1 0 ≤ v))).length ≤
          p.2.length := List.length_filter_le _ _
      have hp2len : p.2.length = V := hV p.2 (hp2 ▸ List.getElem_mem hp1)
      omega
    have hshape := batch_top_tokens_eq top_n_tokens logprobs M hmax hM0
      (by rw [hheadV]; omega) (by rw [hbttV, hbttK]; omega)
    refine ⟨_, hshape, ?_⟩
    intro i hi
    have hclamped : (top_n_tokens.map (fun t => min t (bttV logprobs))).getD i 0 =
        min (top_n_tokens.getD i 0) V := by
      rw [getD_map_list _ _ 0 _ i hi, hbttV]
    have htopidx : (logprobs.map
        (fun row => (torchTopk row (bttK M top_n_tokens logprobs)).map Prod.snd)).getD i []
        = (torchTopk (logprobs.getD i []) K).map Prod.snd := by
      rw [getD_map_list _ _ [] _ i (by omega), hbttK]
    have hout1 : (zipWith3 (fun idxs n req => if 0 < req then idxs.take n else [])
        (logprobs.map
          (fun row => (torchTopk row (bttK M top_n_tokens logprobs)).map Prod.snd))
        (bttCounts M top_n_tokens logprobs)
        (top_n_tokens.map (fun t => min t (bttV logprobs)))).getD i [] =
        (if 0 < min (top_n_tokens.getD i 0) V then
          ((torchTopk (logprobs.getD i []) K).map Prod.snd).take
            ((bttCounts M top_n_tokens logprobs).getD i 0)
        else []) := by
      rw [getD_zipWith3 _ _ _ _ [] 0 0 [] i (by rw [List.length_map]; omega)
        (by omega) (by rw [List.length_map]; omega)]
      rw [hclamped, htopidx]
    by_cases htn0 : top_n_tokens.getD i 0 = 0
    · have hzero : min (top_n_tokens.getD i 0) V = 0 := by rw [htn0]; simp
      have hnpos : ¬ (0 < min (top_n_tokens.getD i 0) V) := by omega
      rw [hout1, if_neg hnpos]
      refine ⟨fun _ => rfl, ?_, ?_⟩
      · intro v
        rw [htn0]
        simp
      · rw [hzero]
        simp
    · have htn1 : 1 ≤ top_n_tokens.getD i 0 := by omega
      have htnV : top_n_tokens.getD i 0 ≤ V := hreq _ (htnmem i hi)
      have hminpos : 0 < min (top_n_tokens.getD i 0) V := by omega
      have hcK : (logprobs.getD i []).countP
          (fun v => decide ((bttNth M top_n_tokens logprobs).getD i 0 ≤ v)) ≤ K := by
        have hmem2 : (bttCounts M top_n_tokens logprobs).getD i 0 ∈
            bttCounts M top_n_tokens logprobs := by
          rw [List.getD_eq_getElem _ _ (by omega)]
          exact List.getElem_mem _
        have hle := hKub _ hmem2
        rw [hcountsget i hi] at hle
        exact hle
      have hcKr : (logprobs.getD i []).countP
          (fun v => decide (rankValue (logprobs.getD i [])
            (top_n_tokens.getD i 0) ≤ v)) ≤ K := by
        rw [← hnth i hi]
        exact hcK
      have hbody : (if 0 < min (top_n_tokens.getD i 0) V then
          ((torchTopk (logprobs.getD i []) K).map Prod.snd).take
            ((bttCounts M top_n_tokens logprobs).getD i 0)
          else []) =
          ((torchTopk (logprobs.getD i []) K).map Prod.snd).take
            ((logprobs.getD i []).countP
              (fun v => decide (rankValue (logprobs.getD i [])
                (top_n_tokens.getD i 0) ≤ v))) := by
        rw [if_pos hminpos, hcountsget i hi, hnth i hi]
      rw [hout1, hbody]
      refine ⟨fun h0 => absurd h0 htn0, ?_, ?_⟩
      · intro v
        rw [topk_take_mem_iff _ _ _ hcKr v, hrowmem i hi]
        constructor
        · rintro ⟨h1, h2⟩
          exact ⟨htn1, h1, h2⟩
        · rintro ⟨_, h1, h2⟩
          exact ⟨h1, h2⟩
      · rw [topk_take_length _ _ _ hcKr]
        have hrank := rank_le_countP (logprobs.getD i []) (top_n_tokens.getD i 0) htn1
          (by rw [hrowmem i hi]; omega)
        omega

/-- C7 witness: one row [5, 5, 2] with requested count 1: the two tied
values 5 at positions 0 and 1 are both at rank 1, so the returned list
holds both indices, more than requested. -/
theorem batch_top_tokens_membership_witness :
    (0 < [1].length ∧ ([[5, 5, 2]] : List (List ℚ)).length = [1].length ∧
      (∀ row ∈ ([[5, 5, 2]] : List (List ℚ)), row.length = 3) ∧
      (∀ t ∈ [1], t ≤ 3) ∧ 0 < 3) ∧
    (∃ out, batch_top_tokens [1] [[5, 5, 2]] = some out ∧
      ∀ i, i < [1].length →
        ([1].getD i 0 = 0 → out.1.getD i [] = []) ∧
        (∀ v, v ∈ out.1.getD i [] ↔
          (0 < [1].getD i 0 ∧ v < 3 ∧
            rankValue (([[5, 5, 2]] : List (List ℚ)).getD i []) ([1].getD i 0) ≤
              (([[5, 5, 2]] : List (List ℚ)).getD i []).getD v 0)) ∧
        (min ([1].getD i 0) 3 ≤ (out.1.getD i []).length)) ∧
    batch_top_tokens [1] [[5, 5, 2]] = some ([[0, 1]], [[5, 5]]) :=
  ⟨⟨by decide, by decide, by decide, by decide, by decide⟩,
    batch_top_tokens_membership [1] [[5, 5, 2]] 3 (by decide) (by decide) (by decide)
      (by decide) (by decide),
    by decide⟩

end TGITokens
